import Mathlib

/-!
# vault_lease_revoke_tool: a verification development of `main.go`

The two routines of the tool are embedded here:

* `runReport` (lines 57-100): the two-level listing mounts → roles → leases with the
  `mountTotal` / `grandTotal` accumulators;
* `runCleanup` (lines 104-169): the sequential part up to the confirmation
  (`cleanupPrologue`) and the goroutine fan-out gated by the buffered channel
  `semaphore` and joined by the `sync.WaitGroup` (`step`, `run`), as an interleaving
  transition system.

The Vault client is a parameter (`Client`): what `List`, `ReadWithData` and `Write`
answer.  Terminal output and remote calls are recorded in a trace of `Event`s.
A Go `int` holding a slice length or a sum of slice lengths is a `Nat`: the sums of
the report stay below `2^63` unless the directory holds `2^63` lease keys.
-/

namespace VaultLeaseTool

/-! ## Untyped values of a decoded response (`interface{}`) -/

/-- Go `interface{}` value as the JSON decoder of the client produces it. -/
inductive Value where
  | null
  | str (s : String)
  | num (n : Int)
  | bool (b : Bool)
  | list (xs : List Value)
  | obj (kvs : List (String × Value))

/-- Comparison `v == nil` of an interface value. -/
def Value.isNil : Value → Bool
  | .null => true
  | _ => false

/-- Type assertion `v.([]interface{})`; `none` is the run-time panic. -/
def asList : Value → Option (List Value)
  | .list xs => some xs
  | _ => none

/-- Type assertion `v.(string)`; `none` is the run-time panic. -/
def asString : Value → Option String
  | .str s => some s
  | _ => none

/-- Type assertion `v.(map[string]interface{})`; `none` is the run-time panic. -/
def asMap : Value → Option (List (String × Value))
  | .obj kvs => some kvs
  | _ => none

/-- Go map `map[string]interface{}`: `none` is the nil map. -/
abbrev GoMap := Option (List (String × Value))

/-- Map read `m[k]`: the zero value (`nil`) when the map is nil or has no entry `k`. -/
def mapIndex (m : GoMap) (k : String) : Value :=
  match m with
  | none => .null
  | some kvs => (kvs.lookup k).getD .null

/-- The part of `api.Secret` the tool reads. -/
structure Secret where
  Data : GoMap

/-- Answer of a client call: `(*api.Secret, error)`. -/
abbrev Response := Option Secret × Option String

/-- The Vault client as the tool uses it.  `list path` is `client.Logical().List(path)`,
`readWithData` is `client.Logical().ReadWithData("sys/leases", type=irrevocable)`, and
`write idx path` is the error (if any) of the `client.Logical().Write(path, nil)` issued
by the goroutine started for the item at position `idx`.  An answer depends on the
arguments of the call only. -/
structure Client where
  list : String → Response
  readWithData : Response
  write : Nat → String → Option String

/-! ## Strings -/

/-- Tables of package `unicode` used by `strings.TrimSpace` and `strings.ToLower`. -/
structure Unicode where
  IsSpace : Char → Bool
  ToLower : Char → Char

/-- ASCII instance of the tables. -/
def asciiTables : Unicode :=
  { IsSpace := fun ch => ch = ' ' || ch = '\t' || ch = '\n' || ch = '\r' || ch.toNat = 11 || ch.toNat = 12
    ToLower := Char.toLower }

/-- Go `strings.TrimSpace`: leading and trailing white space removed. -/
def TrimSpace (u : Unicode) (s : String) : String :=
  String.mk (((s.data.dropWhile u.IsSpace).reverse.dropWhile u.IsSpace).reverse)

/-- Go `strings.ToLower`: every rune mapped to lower case. -/
def ToLower (u : Unicode) (s : String) : String :=
  String.mk (s.data.map u.ToLower)

/-- Go `strings.HasPrefix`. -/
def HasPrefix (s pre : String) : Bool :=
  pre.data.isPrefixOf s.data

/-- Go `strings.TrimSuffix`: `s` without the trailing `suf`, or `s` itself. -/
def TrimSuffix (s suf : String) : String :=
  if suf.data.isSuffixOf s.data then String.mk (s.data.take (s.data.length - suf.data.length)) else s

/-! ## Output and traces -/

/-- Lines written by `fmt.Printf`, `fmt.Println` and `log.Fatalf` (colours and clock
readings left out). -/
inductive Line where
  | reportHeader
  | fatalListing (err : String)
  | noMounts
  | mount (name : String)
  | role (name : String) (count : Nat)
  | mountTotal (name : String) (total : Nat)
  | noCreds
  | grandTotal (total : Nat)
  | fatalFetch (err : String)
  | noLeases
  | found (totalFound : Nat)
  | preparing (countToProcess : Nat)
  | prompt (countToProcess : Nat)
  | cancelled
  | revoked (seq total : Nat) (id : String)
  | failed (seq total : Nat) (id : String) (err : String)
  | completed
  deriving DecidableEq, Repr

/-- Observable actions of a run, in program order. -/
inductive Event where
  | print (l : Line)
  | listCall (path : String)
  | readCall
  | stdinRead
  | writeCall (idx : Nat) (path : String)
  deriving DecidableEq, Repr

/-- How a routine ends: `early` is a `return` statement inside the body, `finished` the
end of the body, `fatal` is `log.Fatalf`, `panic` a run-time panic. -/
inductive Exit where
  | early
  | finished
  | fatal
  | panic
  deriving DecidableEq, Repr

/-- A terminated sequential run. -/
structure Run where
  trace : List Event
  exit : Exit
  deriving DecidableEq, Repr

/-- The lines printed in a trace. -/
def printed (tr : List Event) : List Line :=
  tr.filterMap fun e => match e with
    | .print l => some l
    | _ => none

/-! ## `runReport` -/

/-- Loop `for _, r := range roles` (lines 83-91) with the accumulator `mountTotal`.
`Except.error` carries the trace at a panic. -/
def roleLoop (c : Client) (mount : String) :
    List Value → Nat → List Event → Except (List Event) (Nat × List Event)
  | [], mountTotal, tr => .ok (mountTotal, tr)
  | r :: rest, mountTotal, tr =>
    match asString r with
    | none => .error tr
    | some role =>
      let path := "sys/leases/lookup/" ++ mount ++ "creds/" ++ role
      let leases := (c.list path).1
      let tr := tr ++ [.listCall path]
      match leases with
      | none => roleLoop c mount rest mountTotal tr
      | some sec =>
        match sec.Data with
        | none => roleLoop c mount rest mountTotal tr
        | some d =>
          match asList (mapIndex (some d) "keys") with
          | none => .error tr
          | some ks =>
            let count := ks.length
            roleLoop c mount rest (mountTotal + count)
              (tr ++ [.print (.role (TrimSuffix role "/") count)])

/-- Loop `for _, k := range keys` (lines 73-97) with the accumulator `grandTotal`. -/
def mountLoop (c : Client) :
    List Value → Nat → List Event → Except (List Event) (Nat × List Event)
  | [], grandTotal, tr => .ok (grandTotal, tr)
  | k :: rest, grandTotal, tr =>
    match asString k with
    | none => .error tr
    | some mount =>
      let mountClean := TrimSuffix mount "/"
      let tr := tr ++ [.print (.mount mountClean)]
      let mountTotal := 0
      let path := "sys/leases/lookup/" ++ mount ++ "creds"
      let rolesSecret := (c.list path).1
      let tr := tr ++ [.listCall path]
      match rolesSecret with
      | none => mountLoop c rest (grandTotal + mountTotal) (tr ++ [.print .noCreds])
      | some sec =>
        if sec.Data.isSome && !(mapIndex sec.Data "keys").isNil then
          match asList (mapIndex sec.Data "keys") with
          | none => .error tr
          | some roles =>
            match roleLoop c mount roles mountTotal tr with
            | .error tr => .error tr
            | .ok (mountTotal, tr) =>
              mountLoop c rest (grandTotal + mountTotal)
                (tr ++ [.print (.mountTotal mountClean mountTotal)])
        else mountLoop c rest (grandTotal + mountTotal) (tr ++ [.print .noCreds])

/-- Function `runReport` (lines 57-100). -/
def runReport (c : Client) : Run :=
  let tr := [Event.print .reportHeader, .listCall "sys/leases/lookup"]
  let (secret, err) := c.list "sys/leases/lookup"
  match err with
  | some e => ⟨tr ++ [.print (.fatalListing e)], .fatal⟩
  | none =>
    match secret with
    | none => ⟨tr ++ [.print .noMounts], .early⟩
    | some sec =>
      if (mapIndex sec.Data "keys").isNil then ⟨tr ++ [.print .noMounts], .early⟩
      else
        match asList (mapIndex sec.Data "keys") with
        | none => ⟨tr, .panic⟩
        | some keys =>
          match mountLoop c keys 0 tr with
          | .error tr => ⟨tr, .panic⟩
          | .ok (grandTotal, tr) => ⟨tr ++ [.print (.grandTotal grandTotal)], .finished⟩

/-! ## `runCleanup`: the sequential part -/

/-- Step 2 of `runCleanup` (lines 120-123): the slice `toRevoke` cut from `allLeases`. -/
def toRevoke {α : Type} (allLeases : List α) (limit : Int) : List α :=
  let totalFound := allLeases.length
  if limit > 0 ∧ limit < (totalFound : Int) then allLeases.take limit.toNat else allLeases

/-- Result of the sequential part of `runCleanup`: the routine is over (`halt`), or
step 4 starts on the slice `toRevoke` (`proceed`). -/
inductive Prologue where
  | halt (tr : List Event) (e : Exit)
  | proceed (tr : List Event) (toRevoke : List Value)

/-- The test of the confirmation (line 134) on the line read from standard input. -/
def confirmed (u : Unicode) (response : String) : Bool :=
  HasPrefix (ToLower u (TrimSpace u response)) "y"

/-- Steps 1 to 3 of `runCleanup` (lines 104-138); `response` is what
`reader.ReadString` returns. -/
def cleanupPrologue (u : Unicode) (c : Client) (limit : Int) (autoApprove : Bool)
    (response : String) : Prologue :=
  let (secret, err) := c.readWithData
  let tr := [Event.readCall]
  match err with
  | some e => .halt (tr ++ [.print (.fatalFetch e)]) .fatal
  | none =>
    match secret with
    | none => .halt (tr ++ [.print .noLeases]) .early
    | some sec =>
      if (mapIndex sec.Data "leases").isNil then .halt (tr ++ [.print .noLeases]) .early
      else
        match asList (mapIndex sec.Data "leases") with
        | none => .halt tr .panic
        | some allLeases =>
          let totalFound := allLeases.length
          let toRevoke := toRevoke allLeases limit
          let countToProcess := toRevoke.length
          let tr := tr ++ [.print (.found totalFound), .print (.preparing countToProcess)]
          if !autoApprove then
            let tr := tr ++ [.print (.prompt countToProcess), .stdinRead]
            if !confirmed u response then .halt (tr ++ [.print .cancelled]) .early
            else .proceed tr toRevoke
          else .proceed tr toRevoke

/-! ## `runCleanup`: the goroutines of step 4 -/

/-- Program point of a goroutine `func(idx int, id string)` (lines 150-164): the next
thing it does. -/
inductive Pc where
  | acquire
  | call
  | inFlight
  | release
  | signal
  | done
  deriving DecidableEq, Repr

/-- A started goroutine with its arguments. -/
structure Worker where
  idx : Nat
  id : String
  pc : Pc
  deriving DecidableEq, Repr

/-- Program point of the main goroutine in step 4. -/
inductive MainPc where
  | dispatch (i : Nat)
  | wait
  | halted (e : Exit)
  deriving DecidableEq, Repr

/-- State of the process during step 4: `capacity` and `sem` are `cap(semaphore)` and
`len(semaphore)`, `wg` is the counter of the `sync.WaitGroup`. -/
structure State where
  toRevoke : List Value
  capacity : Nat
  sem : Nat
  wg : Nat
  workers : List Worker
  main : MainPc
  trace : List Event

/-- The lease identifier of a selected item (lines 146-147): both type assertions. -/
def leaseID (l : Value) : Option String :=
  match asMap l with
  | none => none
  | some leaseData => asString (mapIndex (some leaseData) "lease_id")

/-- The path of the force-revoke call (line 157). -/
def revokePath (id : String) : String :=
  "sys/leases/revoke-force/" ++ id

/-- The outcome line of a goroutine (lines 159-163). -/
def outcomeLine (idx countToProcess : Nat) (id : String) (err : Option String) : Line :=
  match err with
  | none => .revoked (idx + 1) countToProcess id
  | some e => .failed (idx + 1) countToProcess id e

/-- Lines 141-144: `make(chan struct{}, parallel)` panics for a negative size, and
is an unbuffered channel for size 0. -/
def poolInit (toRevoke : List Value) (parallel : Int) (tr : List Event) : State :=
  if parallel < 0 then
    { toRevoke := toRevoke, capacity := 0, sem := 0, wg := 0, workers := [],
      main := .halted .panic, trace := tr }
  else
    { toRevoke := toRevoke, capacity := parallel.toNat, sem := 0, wg := 0, workers := [],
      main := .dispatch 0, trace := tr }

/-- A state in which the routine is over before step 4. -/
def haltedState (tr : List Event) (e : Exit) : State :=
  { toRevoke := [], capacity := 0, sem := 0, wg := 0, workers := [],
    main := .halted e, trace := tr }

/-- Function `runCleanup` up to the creation of the semaphore. -/
def cleanupStart (u : Unicode) (c : Client) (limit parallel : Int) (autoApprove : Bool)
    (response : String) : State :=
  match cleanupPrologue u c limit autoApprove response with
  | .halt tr e => haltedState tr e
  | .proceed tr sel => poolInit sel parallel tr

/-- Who moves next. -/
inductive Action where
  | main
  | worker (k : Nat)
  deriving DecidableEq, Repr

/-- One step of the main goroutine: an iteration of the loop of line 145 (the two type
assertions, `wg.Add(1)` and the `go` statement), the end of the loop, or `wg.Wait()`
followed by the last line.  `none`: blocked, or the process is over. -/
def stepMain (s : State) : Option State :=
  match s.main with
  | .dispatch i =>
    match s.toRevoke[i]? with
    | none => some { s with main := .wait }
    | some l =>
      match leaseID l with
      | none => some { s with main := .halted .panic }
      | some id =>
        some { s with wg := s.wg + 1, workers := s.workers ++ [⟨i, id, .acquire⟩],
                      main := .dispatch (i + 1) }
  | .wait =>
    if s.wg = 0 then
      some { s with trace := s.trace ++ [.print .completed], main := .halted .finished }
    else none
  | .halted _ => none

/-- One step of the goroutine `k`: send on `semaphore`, issue `Write`, get its answer and
print the line, receive from `semaphore`, `wg.Done()`.  `none`: blocked, finished, not
started, or the process is over. -/
def stepWorker (c : Client) (s : State) (k : Nat) : Option State :=
  match s.main with
  | .halted _ => none
  | _ =>
    match s.workers[k]? with
    | none => none
    | some w =>
      match w.pc with
      | .acquire =>
        if s.sem < s.capacity then
          some { s with sem := s.sem + 1, workers := s.workers.set k { w with pc := .call } }
        else none
      | .call =>
        some { s with trace := s.trace ++ [.writeCall w.idx (revokePath w.id)],
                      workers := s.workers.set k { w with pc := .inFlight } }
      | .inFlight =>
        let err := c.write w.idx (revokePath w.id)
        some { s with
          trace := s.trace ++ [.print (outcomeLine w.idx s.toRevoke.length w.id err)],
          workers := s.workers.set k { w with pc := .release } }
      | .release =>
        if 0 < s.sem then
          some { s with sem := s.sem - 1, workers := s.workers.set k { w with pc := .signal } }
        else none
      | .signal =>
        if 0 < s.wg then
          some { s with wg := s.wg - 1, workers := s.workers.set k { w with pc := .done } }
        else some { s with main := .halted .panic }
      | .done => none

/-- One step of the process. -/
def step (c : Client) (s : State) : Action → Option State
  | .main => stepMain s
  | .worker k => stepWorker c s k

/-- The state after a schedule; an action that is not enabled leaves the state as it
is, so the states `run c s acts` are the states reachable from `s`. -/
def run (c : Client) (s : State) : List Action → State
  | [] => s
  | a :: acts => run c ((step c s a).getD s) acts

/-- Function `runCleanup` (lines 104-169): the state of the process after the sequential
part and the steps of a schedule of step 4. -/
def runCleanup (u : Unicode) (c : Client) (limit parallel : Int) (autoApprove : Bool)
    (response : String) (acts : List Action) : State :=
  run c (cleanupStart u c limit parallel autoApprove response) acts

/-- Number of goroutines at a program point selected by `f`. -/
def tally (f : Pc → Nat) (ws : List Worker) : Nat :=
  (ws.map fun w => f w.pc).sum

/-- Holding a slot of the semaphore. -/
def Pc.holds : Pc → Nat
  | .call | .inFlight | .release => 1
  | _ => 0

/-- Counted by the wait group. -/
def Pc.live : Pc → Nat
  | .done => 0
  | _ => 1

/-- The `Write` call is in flight. -/
def Pc.flying : Pc → Nat
  | .inFlight => 1
  | _ => 0

/-- The `Write` call has been issued. -/
def Pc.issued : Pc → Nat
  | .inFlight | .release | .signal | .done => 1
  | _ => 0

/-- The outcome line has been printed. -/
def Pc.reported : Pc → Nat
  | .release | .signal | .done => 1
  | _ => 0

/-- Steps a goroutine still has to take. -/
def Pc.remaining : Pc → Nat
  | .acquire => 5
  | .call => 4
  | .inFlight => 3
  | .release => 2
  | .signal => 1
  | .done => 0

/-- Number of revoke calls in flight. -/
def inFlight (s : State) : Nat :=
  tally Pc.flying s.workers

/-- The `Write` calls of a trace issued for the item at position `k`. -/
def callsFor (k : Nat) (tr : List Event) : List String :=
  tr.filterMap fun e => match e with
    | .writeCall i p => if i = k then some p else none
    | _ => none

/-- All `Write` calls of a trace. -/
def writeCalls (tr : List Event) : List String :=
  tr.filterMap fun e => match e with
    | .writeCall _ p => some p
    | _ => none

/-- The label `i` of an outcome line `[i/total]`. -/
def Line.seq : Line → Option Nat
  | .revoked i _ _ => some i
  | .failed i _ _ _ => some i
  | _ => none

/-- The outcome lines of a trace. -/
def outcomes (tr : List Event) : List Line :=
  (printed tr).filter fun l => l.seq.isSome

/-- The outcome lines of a trace labelled `[k+1/total]`. -/
def outcomesFor (k : Nat) (tr : List Event) : List Line :=
  (printed tr).filter fun l => l.seq = some (k + 1)

/-! ## The directory a client shows, and the report expected for it -/

/-- The strings of a list of values; `none` when an element is not a string. -/
def asStrings : List Value → Option (List String)
  | [] => some []
  | v :: vs =>
    match asString v, asStrings vs with
    | some s, some ss => some (s :: ss)
    | _, _ => none

/-- Path of the role listing of a mount (line 79). -/
def rolesPath (mount : String) : String :=
  "sys/leases/lookup/" ++ mount ++ "creds"

/-- Path of the lease listing of a role (line 85). -/
def leasesPath (mount role : String) : String :=
  "sys/leases/lookup/" ++ mount ++ "creds/" ++ role

/-- The names listed in an answer; `none` when the list is absent (a nil response, a nil
map, no "keys" entry) or is not a list of strings. -/
def namesOf (r : Response) : Option (List String) :=
  match r.1 with
  | none => none
  | some sec =>
    match mapIndex sec.Data "keys" with
    | .list vs => asStrings vs
    | _ => none

/-- A well-formed listing of names: absent, or a list of strings. -/
def wfNames (r : Response) : Bool :=
  match r.1 with
  | none => true
  | some sec =>
    match mapIndex sec.Data "keys" with
    | .null => true
    | .list vs => (asStrings vs).isSome
    | _ => false

/-- The lease keys listed in an answer; `none` when the list is absent (a nil response, a
nil map, no "keys" entry) or is not a list. -/
def leaseKeysOf (r : Response) : Option (List Value) :=
  match r.1 with
  | none => none
  | some sec => asList (mapIndex sec.Data "keys")

/-- A well-formed listing of lease keys: absent (a nil response, a nil map, no "keys"
entry), or a list under "keys". -/
def wfLeaseKeys (r : Response) : Bool :=
  match r.1 with
  | none => true
  | some sec =>
    match mapIndex sec.Data "keys" with
    | .null => true
    | .list _ => true
    | _ => false

/-- The test of line 86 is enough for this lease answer: it is not a non-nil map without
a "keys" entry. -/
def keysGuarded (r : Response) : Bool :=
  match r.1 with
  | none => true
  | some sec => !(sec.Data.isSome && (mapIndex sec.Data "keys").isNil)

/-- Lease count of a role: the number of its lease keys, 0 when the list is absent. -/
def roleCount (c : Client) (mount role : String) : Nat :=
  match leaseKeysOf (c.list (leasesPath mount role)) with
  | some ks => ks.length
  | none => 0

/-- Subtotal of a mount: the sum of the lease counts of its roles, 0 without roles. -/
def subtotal (c : Client) (mount : String) : Nat :=
  match namesOf (c.list (rolesPath mount)) with
  | some roles => (roles.map (roleCount c mount)).sum
  | none => 0

/-- The lines expected for the roles of a mount: one per role whose lease list is
present. -/
def roleLines (c : Client) (mount : String) (roles : List String) : List Line :=
  roles.filterMap fun role =>
    (leaseKeysOf (c.list (leasesPath mount role))).map fun ks =>
      Line.role (TrimSuffix role "/") ks.length

/-- The lines expected for a mount: its name, its role lines and its subtotal, or the
remark that it has no roles. -/
def mountBlock (c : Client) (mount : String) : List Line :=
  .mount (TrimSuffix mount "/") ::
    match namesOf (c.list (rolesPath mount)) with
    | some roles =>
      roleLines c mount roles ++ [.mountTotal (TrimSuffix mount "/") (subtotal c mount)]
    | none => [.noCreds]

/-- A well-formed two-level directory: the mount listing answers without error the
strings `mounts`; every mount has an absent or well-formed list of roles; every role has
an absent or well-formed list of lease keys. -/
def wellFormed (c : Client) (mounts : List String) : Bool :=
  (c.list "sys/leases/lookup").2.isNone &&
  (namesOf (c.list "sys/leases/lookup") == some mounts) &&
  mounts.all fun mount =>
    wfNames (c.list (rolesPath mount)) &&
    ((namesOf (c.list (rolesPath mount))).getD []).all fun role =>
      wfLeaseKeys (c.list (leasesPath mount role))

/-- No lease listing of the directory is a non-nil map without a "keys" entry. -/
def allKeysGuarded (c : Client) (mounts : List String) : Bool :=
  mounts.all fun mount =>
    ((namesOf (c.list (rolesPath mount))).getD []).all fun role =>
      keysGuarded (c.list (leasesPath mount role))

/-- A listing with the given keys. -/
def keysAnswer (ks : List String) : Response :=
  (some ⟨some [("keys", .list (ks.map .str))]⟩, none)

/-- Scenario A: mount "db/" with the roles "readonly" (5 leases) and "admin" (2 leases),
mount "aws/" without roles. -/
def scenarioA : Client :=
  { list := fun path =>
      if path = "sys/leases/lookup" then keysAnswer ["db/", "aws/"]
      else if path = "sys/leases/lookup/db/creds" then keysAnswer ["readonly", "admin"]
      else if path = "sys/leases/lookup/db/creds/readonly" then
        keysAnswer ["l1", "l2", "l3", "l4", "l5"]
      else if path = "sys/leases/lookup/db/creds/admin" then keysAnswer ["m1", "m2"]
      else (none, none)
    readWithData := (none, none)
    write := fun _ _ => none }

/-- A directory whose only role answers the lease listing with a map that has no
"keys" entry. -/
def noKeysClient : Client :=
  { list := fun path =>
      if path = "sys/leases/lookup" then keysAnswer ["db/"]
      else if path = "sys/leases/lookup/db/creds" then keysAnswer ["readonly"]
      else if path = "sys/leases/lookup/db/creds/readonly" then
        (some ⟨some [("warnings", .null)]⟩, none)
      else (none, none)
    readWithData := (none, none)
    write := fun _ _ => none }

/-- Mount "db/" with the roles "readonly" (5 leases) and "admin", whose lease listing
answers a map that has no "keys" entry, and mount "aws/" without roles. -/
def partialKeysClient : Client :=
  { list := fun path =>
      if path = "sys/leases/lookup" then keysAnswer ["db/", "aws/"]
      else if path = "sys/leases/lookup/db/creds" then keysAnswer ["readonly", "admin"]
      else if path = "sys/leases/lookup/db/creds/readonly" then
        keysAnswer ["l1", "l2", "l3", "l4", "l5"]
      else if path = "sys/leases/lookup/db/creds/admin" then
        (some ⟨some [("warnings", .null)]⟩, none)
      else (none, none)
    readWithData := (none, none)
    write := fun _ _ => none }

/-- A lease entry of the irrevocable-lease answer. -/
def leaseEntry (id : String) : Value :=
  .obj [("lease_id", .str id), ("error", .str "failed to revoke")]

/-- A client whose fetch answers the given leases and whose revoke calls fail at the
positions in `failing`. -/
def fetchClient (leases : List Value) (failing : List Nat) : Client :=
  { list := fun _ => (none, none)
    readWithData := (some ⟨some [("lease_count", .num leases.length), ("leases", .list leases)]⟩, none)
    write := fun idx _ => if idx ∈ failing then some "permission denied" else none }

/-- A client whose entry calls fail. -/
def downClient : Client :=
  { list := fun _ => (none, some "connection refused")
    readWithData := (none, some "connection refused")
    write := fun _ _ => none }

/-- Whether step 4 starts. -/
def Prologue.proceeds : Prologue → Bool
  | .halt _ _ => false
  | .proceed _ _ => true

/-- Invariant of step 4: the channel and the wait group count what the goroutines
have done, every goroutine carries the position and identifier of its item, and the
trace holds one `Write` call per issued call and one line per reported outcome. -/
structure Inv (c : Client) (s : State) : Prop where
  sem_eq : s.sem = tally Pc.holds s.workers
  wg_eq : s.wg = tally Pc.live s.workers
  sem_le : s.sem ≤ s.capacity
  args : ∀ (k : Nat) (w : Worker), s.workers[k]? = some w → w.idx = k ∧ (s.toRevoke[k]?).bind leaseID = some w.id
  len_le : s.workers.length ≤ s.toRevoke.length
  at_dispatch : ∀ i, s.main = .dispatch i → s.workers.length = i
  at_wait : s.main = .wait → s.workers.length = s.toRevoke.length
  at_finish : s.main = .halted .finished →
    s.workers.length = s.toRevoke.length ∧ tally Pc.live s.workers = 0 ∧
      s.trace.getLast? = some (.print .completed)
  calls : ∀ k, callsFor k s.trace =
    match s.workers[k]? with
    | some w => if w.pc.issued = 1 then [revokePath w.id] else []
    | none => []
  outs : ∀ k, outcomesFor k s.trace =
    match s.workers[k]? with
    | some w =>
      if w.pc.reported = 1 then
        [outcomeLine k s.toRevoke.length w.id (c.write k (revokePath w.id))]
      else []
    | none => []
  ncalls : (writeCalls s.trace).length = tally Pc.issued s.workers
  nouts : (outcomes s.trace).length = tally Pc.reported s.workers

/-- Well-formed leases: the two type assertions of lines 146-147 succeed on each. -/
def wfLeases (sel : List Value) : Bool :=
  sel.all fun l => (leaseID l).isSome

/-- A state of a run on well-formed leases with a semaphore of capacity at least 1:
the invariant holds and the process has not ended otherwise than at the end of
`runCleanup`. -/
structure Good (c : Client) (s : State) : Prop where
  inv : Inv c s
  wf : wfLeases s.toRevoke = true
  cap : 1 ≤ s.capacity
  safe : ∀ e, s.main = .halted e → e = .finished

/-- Steps the main goroutine still has to take, for `n` selected items. -/
def MainPc.remaining (n : Nat) : MainPc → Nat
  | .dispatch i => (n - i) + 2
  | .wait => 1
  | .halted _ => 0

/-- Steps the process still has to take. -/
def fuel (s : State) : Nat :=
  s.main.remaining s.toRevoke.length + 5 * (s.toRevoke.length - s.workers.length) +
    tally Pc.remaining s.workers

/-- A round of a schedule: the goroutines `ks` send on the semaphore and issue their
calls in this order, get their answers in the reverse order, then release their slots
and signal the wait group. -/
def roundOf (ks : List Nat) : List Action :=
  ks.map .worker ++ ks.map .worker ++ ks.reverse.map .worker ++ ks.map .worker ++
    ks.map .worker

/-- Scenario B: 25 candidate leases. -/
def candidatesB : List Value :=
  ["a", "b", "c", "d", "e", "f", "g", "h", "i", "j", "k", "l", "m", "n", "o", "p", "q",
    "r", "s", "t", "u", "v", "w", "x", "y"].map leaseEntry

/-- Scenario B: the start of a schedule, after which four calls are in flight. -/
def scheduleBStart : List Action :=
  List.replicate 11 .main ++ [.worker 0, .worker 1, .worker 2, .worker 3, .worker 4,
    .worker 0, .worker 1, .worker 2, .worker 3]

/-- Scenario B: a schedule of the whole batch in rounds of four, four and two. -/
def scheduleB : List Action :=
  List.replicate 11 .main ++ roundOf [0, 1, 2, 3] ++ roundOf [4, 5, 6, 7] ++
    roundOf [8, 9] ++ [.main]

/-- Three leases, the second of which fails to be revoked, and a schedule in which the
third completes first. -/
def threeLeases : List Value :=
  [leaseEntry "db/creds/ro/1", leaseEntry "db/creds/ro/2", leaseEntry "aws/creds/dev/3"]

/-- A schedule for three leases and two slots: the third item completes first. -/
def scheduleThree : List Action :=
  [.main, .main, .main, .main, .worker 2, .worker 0, .worker 1, .worker 2, .worker 2,
    .worker 0, .worker 2, .worker 1, .worker 0, .worker 2, .worker 1, .worker 0, .worker 1,
    .worker 0, .worker 1, .worker 1, .main]

/-- Another schedule for three leases and two slots: in rounds. -/
def scheduleThreeAlt : List Action :=
  List.replicate 4 .main ++ roundOf [0, 1] ++ roundOf [2] ++ [.main]

/-- Two selected items, the second of which is not a lease entry. -/
def malformedLeases : List Value :=
  [leaseEntry "a", .str "oops"]

/-! ## Counting goroutines -/

theorem tally_append (f : Pc → Nat) (ws ws' : List Worker) :
    tally f (ws ++ ws') = tally f ws + tally f ws' := by
  simp [tally]

theorem tally_set (f : Pc → Nat) (ws : List Worker) (k : Nat) (w w' : Worker)
    (h : ws[k]? = some w) : tally f (ws.set k w') + f w.pc = tally f ws + f w'.pc := by
  induction ws generalizing k with
  | nil => simp at h
  | cons a as ih =>
    cases k with
    | zero =>
      simp at h
      subst h
      simp [tally]
      omega
    | succ k =>
      simp at h
      have := ih k h
      simp [tally] at this ⊢
      omega

theorem tally_mem_le (f : Pc → Nat) (ws : List Worker) (k : Nat) (w : Worker)
    (h : ws[k]? = some w) : f w.pc ≤ tally f ws := by
  induction ws generalizing k with
  | nil => simp at h
  | cons a as ih =>
    cases k with
    | zero =>
      simp at h
      subst h
      simp [tally]
    | succ k =>
      simp at h
      have := ih k h
      simp [tally] at this ⊢
      omega

theorem tally_pos (f : Pc → Nat) (ws : List Worker) (h : 0 < tally f ws) :
    ∃ (k : Nat) (w : Worker), ws[k]? = some w ∧ 0 < f w.pc := by
  induction ws with
  | nil => simp [tally] at h
  | cons a as ih =>
    by_cases ha : 0 < f a.pc
    · exact ⟨0, a, by simp, ha⟩
    · have h' : 0 < tally f as := by
        have e : tally f (a :: as) = f a.pc + tally f as := by simp [tally]
        omega
      obtain ⟨k, w, hk, hw⟩ := ih h'
      exact ⟨k + 1, w, by simp [hk], hw⟩

theorem tally_le_tally (f g : Pc → Nat) (hfg : ∀ pc, f pc ≤ g pc) (ws : List Worker) :
    tally f ws ≤ tally g ws := by
  induction ws with
  | nil => simp [tally]
  | cons a as ih =>
    have := hfg a.pc
    simp [tally] at ih ⊢
    omega

theorem tally_all_done (f : Pc → Nat) (ws : List Worker) (h : tally Pc.live ws = 0) :
    tally f ws = f .done * ws.length := by
  induction ws with
  | nil => simp [tally]
  | cons a as ih =>
    have h' : a.pc.live = 0 ∧ tally Pc.live as = 0 := by
      simp [tally] at h ⊢
      exact h
    have ha : a.pc = .done := by
      cases hpc : a.pc <;> simp [hpc, Pc.live] at h' ⊢
    have := ih h'.2
    simp [tally, ha] at this ⊢
    rw [this, Nat.mul_add]
    omega

theorem done_of_live_zero (ws : List Worker) (h : tally Pc.live ws = 0) (k : Nat)
    (w : Worker) (hk : ws[k]? = some w) : w.pc = .done := by
  have := tally_mem_le Pc.live ws k w hk
  cases hpc : w.pc <;> simp [hpc, Pc.live] at this ⊢
  all_goals omega

/-! ## Traces -/

theorem callsFor_append (k : Nat) (tr tr' : List Event) :
    callsFor k (tr ++ tr') = callsFor k tr ++ callsFor k tr' := by
  simp [callsFor]

theorem writeCalls_append (tr tr' : List Event) :
    writeCalls (tr ++ tr') = writeCalls tr ++ writeCalls tr' := by
  simp [writeCalls]

theorem printed_append (tr tr' : List Event) :
    printed (tr ++ tr') = printed tr ++ printed tr' := by
  simp [printed]

theorem outcomes_append (tr tr' : List Event) :
    outcomes (tr ++ tr') = outcomes tr ++ outcomes tr' := by
  simp [outcomes, printed_append]

theorem outcomesFor_append (k : Nat) (tr tr' : List Event) :
    outcomesFor k (tr ++ tr') = outcomesFor k tr ++ outcomesFor k tr' := by
  simp [outcomesFor, printed_append]

theorem outcomeLine_seq (k n : Nat) (id : String) (err : Option String) :
    (outcomeLine k n id err).seq = some (k + 1) := by
  cases err <;> rfl

theorem callsFor_nil_of_writeCalls (k : Nat) (tr : List Event) (h : writeCalls tr = []) :
    callsFor k tr = [] := by
  simp only [writeCalls, callsFor, List.filterMap_eq_nil_iff] at h ⊢
  intro e he
  have := h e he
  cases e <;> simp at this ⊢

theorem outcomesFor_nil_of_outcomes (k : Nat) (tr : List Event) (h : outcomes tr = []) :
    outcomesFor k tr = [] := by
  simp only [outcomes, outcomesFor, List.filter_eq_nil_iff] at h ⊢
  intro l hl hseq
  have := h l hl
  simp at hseq
  simp [hseq] at this

/-! ## The steps -/

theorem stepWorker_cases {c : Client} {s s' : State} {k : Nat}
    (h : stepWorker c s k = some s') :
    (∀ e, s.main ≠ .halted e) ∧ ∃ w, s.workers[k]? = some w ∧
      ((w.pc = .acquire ∧ s.sem < s.capacity ∧
          s' = { s with sem := s.sem + 1,
                        workers := s.workers.set k { w with pc := .call } }) ∨
       (w.pc = .call ∧
          s' = { s with trace := s.trace ++ [.writeCall w.idx (revokePath w.id)],
                        workers := s.workers.set k { w with pc := .inFlight } }) ∨
       (w.pc = .inFlight ∧
          s' = { s with
            trace := s.trace ++ [.print (outcomeLine w.idx s.toRevoke.length w.id
              (c.write w.idx (revokePath w.id)))],
            workers := s.workers.set k { w with pc := .release } }) ∨
       (w.pc = .release ∧ 0 < s.sem ∧
          s' = { s with sem := s.sem - 1,
                        workers := s.workers.set k { w with pc := .signal } }) ∨
       (w.pc = .signal ∧ 0 < s.wg ∧
          s' = { s with wg := s.wg - 1,
                        workers := s.workers.set k { w with pc := .done } }) ∨
       (w.pc = .signal ∧ s.wg = 0 ∧ s' = { s with main := .halted .panic })) := by
  unfold stepWorker at h
  split at h
  · simp at h
  · rename_i hmain
    refine ⟨fun e he => hmain e he, ?_⟩
    split at h
    · simp at h
    · rename_i w hw
      refine ⟨w, hw, ?_⟩
      split at h
      · rename_i hpc
        split at h
        · rename_i hlt
          simp at h
          exact Or.inl ⟨hpc, hlt, h.symm⟩
        · simp at h
      · rename_i hpc
        simp at h
        exact Or.inr (Or.inl ⟨hpc, h.symm⟩)
      · rename_i hpc
        simp at h
        exact Or.inr (Or.inr (Or.inl ⟨hpc, h.symm⟩))
      · rename_i hpc
        split at h
        · rename_i hlt
          simp at h
          exact Or.inr (Or.inr (Or.inr (Or.inl ⟨hpc, hlt, h.symm⟩)))
        · simp at h
      · rename_i hpc
        split at h
        · rename_i hlt
          simp at h
          exact Or.inr (Or.inr (Or.inr (Or.inr (Or.inl ⟨hpc, hlt, h.symm⟩))))
        · rename_i hlt
          simp at h
          exact Or.inr (Or.inr (Or.inr (Or.inr (Or.inr ⟨hpc, by omega, h.symm⟩))))
      · simp at h

theorem stepMain_cases {s s' : State} (h : stepMain s = some s') :
    (∃ i, s.main = .dispatch i ∧ s.toRevoke[i]? = none ∧ s' = { s with main := .wait }) ∨
    (∃ i l, s.main = .dispatch i ∧ s.toRevoke[i]? = some l ∧ leaseID l = none ∧
        s' = { s with main := .halted .panic }) ∨
    (∃ i l id, s.main = .dispatch i ∧ s.toRevoke[i]? = some l ∧ leaseID l = some id ∧
        s' = { s with wg := s.wg + 1, workers := s.workers ++ [⟨i, id, .acquire⟩],
                      main := .dispatch (i + 1) }) ∨
    (s.main = .wait ∧ s.wg = 0 ∧
        s' = { s with trace := s.trace ++ [.print .completed], main := .halted .finished }) := by
  unfold stepMain at h
  split at h
  · rename_i i hmain
    split at h
    · rename_i hnone
      simp at h
      exact Or.inl ⟨i, hmain, hnone, h.symm⟩
    · rename_i l hl
      split at h
      · rename_i hid
        simp at h
        exact Or.inr (Or.inl ⟨i, l, hmain, hl, hid, h.symm⟩)
      · rename_i id hid
        simp at h
        exact Or.inr (Or.inr (Or.inl ⟨i, l, id, hmain, hl, hid, h.symm⟩))
  · rename_i hmain
    split at h
    · rename_i hwg
      simp at h
      exact Or.inr (Or.inr (Or.inr ⟨hmain, hwg, h.symm⟩))
    · simp at h
  · simp at h

/-! ## The invariant is kept -/

theorem inv_set_pc {c : Client} {s : State} (hinv : Inv c s) {k : Nat} {w : Worker}
    (hw : s.workers[k]? = some w) (hmain : ∀ e, s.main ≠ .halted e)
    (q : Pc) (sem' wg' : Nat) (evs : List Event)
    (hsem : sem' + w.pc.holds = s.sem + q.holds)
    (hwg : wg' + w.pc.live = s.wg + q.live)
    (hcap : sem' ≤ s.capacity)
    (hcalls : ∀ j, callsFor j evs =
      if j = k ∧ w.pc.issued = 0 ∧ q.issued = 1 then [revokePath w.id] else [])
    (hissued : w.pc.issued ≤ q.issued)
    (houts : ∀ j, outcomesFor j evs =
      if j = k ∧ w.pc.reported = 0 ∧ q.reported = 1 then
        [outcomeLine k s.toRevoke.length w.id (c.write k (revokePath w.id))] else [])
    (hreported : w.pc.reported ≤ q.reported)
    (hncalls : (writeCalls evs).length + w.pc.issued = q.issued)
    (hnouts : (outcomes evs).length + w.pc.reported = q.reported) :
    Inv c { s with sem := sem', wg := wg', trace := s.trace ++ evs,
                   workers := s.workers.set k { w with pc := q } } := by
  have hH := tally_set Pc.holds s.workers k w { w with pc := q } hw
  have hL := tally_set Pc.live s.workers k w { w with pc := q } hw
  have hI := tally_set Pc.issued s.workers k w { w with pc := q } hw
  have hR := tally_set Pc.reported s.workers k w { w with pc := q } hw
  have hget : ∀ j : Nat, (s.workers.set k { w with pc := q })[j]? =
      if k = j then some { w with pc := q } else s.workers[j]? := by
    intro j
    rw [List.getElem?_set]
    split
    · rename_i hkj
      subst hkj
      have hlt : k < s.workers.length := by
        rcases Nat.lt_or_ge k s.workers.length with h | h
        · exact h
        · rw [List.getElem?_eq_none h] at hw
          cases hw
      simp [hlt]
    · rfl
  refine
    { sem_eq := ?_, wg_eq := ?_, sem_le := hcap, args := ?_, len_le := ?_, at_dispatch := ?_,
      at_wait := ?_, at_finish := ?_, calls := ?_, outs := ?_, ncalls := ?_, nouts := ?_ }
  · have := hinv.sem_eq
    simp only at hH ⊢
    omega
  · have := hinv.wg_eq
    simp only at hL ⊢
    omega
  · intro j w' hj
    simp only at hj ⊢
    rw [hget] at hj
    split at hj
    · rename_i hkj
      subst hkj
      cases hj
      exact hinv.args k w hw
    · exact hinv.args j w' hj
  · simpa using hinv.len_le
  · intro i hi
    simpa using hinv.at_dispatch i hi
  · intro hm
    simpa using hinv.at_wait hm
  · intro hm
    exact absurd hm (hmain _)
  · intro j
    simp only
    rw [callsFor_append, hinv.calls j, hcalls j, hget j]
    by_cases hkj : k = j
    · subst hkj
      simp only [hw, if_true, true_and]
      have : w.pc.issued ≤ 1 := by cases w.pc <;> simp [Pc.issued]
      have : q.issued ≤ 1 := by cases q <;> simp [Pc.issued]
      by_cases h1 : w.pc.issued = 1
      · have h2 : q.issued = 1 := by omega
        simp [h1, h2]
      · have h0 : w.pc.issued = 0 := by omega
        by_cases h2 : q.issued = 1
        · simp [h0, h2]
        · simp [h0, h2]
    · have hjk : ¬ j = k := fun h => hkj h.symm
      simp [hkj, hjk]
  · intro j
    simp only
    rw [outcomesFor_append, hinv.outs j, houts j, hget j]
    by_cases hkj : k = j
    · subst hkj
      simp only [hw, if_true, true_and]
      have : w.pc.reported ≤ 1 := by cases w.pc <;> simp [Pc.reported]
      have : q.reported ≤ 1 := by cases q <;> simp [Pc.reported]
      by_cases h1 : w.pc.reported = 1
      · have h2 : q.reported = 1 := by omega
        simp [h1, h2]
      · have h0 : w.pc.reported = 0 := by omega
        by_cases h2 : q.reported = 1
        · simp [h0, h2]
        · simp [h0, h2]
    · have hjk : ¬ j = k := fun h => hkj h.symm
      simp [hkj, hjk]
  · have := hinv.ncalls
    simp only [writeCalls_append, List.length_append] at hI ⊢
    omega
  · have := hinv.nouts
    simp only [outcomes_append, List.length_append] at hR ⊢
    omega

theorem inv_stepWorker {c : Client} {s s' : State} {k : Nat} (hinv : Inv c s)
    (h : stepWorker c s k = some s') : Inv c s' := by
  obtain ⟨hmain, w, hw, hcase⟩ := stepWorker_cases h
  have hidx : w.idx = k := (hinv.args k w hw).1
  have hmem := tally_mem_le Pc.holds s.workers k w hw
  have hmemL := tally_mem_le Pc.live s.workers k w hw
  have hsemeq := hinv.sem_eq
  have hwgeq := hinv.wg_eq
  have hsemle := hinv.sem_le
  rcases hcase with ⟨hpc, hlt, rfl⟩ | ⟨hpc, rfl⟩ | ⟨hpc, rfl⟩ | ⟨hpc, hlt, rfl⟩ |
    ⟨hpc, hlt, rfl⟩ | ⟨hpc, hz, rfl⟩
  · have := inv_set_pc hinv hw hmain .call (s.sem + 1) s.wg []
      (by simp [hpc, Pc.holds]) (by simp [hpc, Pc.live]) (by omega)
      (by intro j; simp [callsFor, hpc, Pc.issued]) (by simp [hpc, Pc.issued])
      (by intro j; simp [outcomesFor, printed, hpc, Pc.reported]) (by simp [hpc, Pc.reported])
      (by simp [writeCalls, hpc, Pc.issued]) (by simp [outcomes, printed, hpc, Pc.reported])
    simpa using this
  · have := inv_set_pc hinv hw hmain .inFlight s.sem s.wg
      [.writeCall w.idx (revokePath w.id)]
      (by simp [hpc, Pc.holds]) (by simp [hpc, Pc.live]) (by omega)
      (by
        intro j
        by_cases hj : k = j
        · simp [callsFor, hpc, Pc.issued, hidx, hj]
        · have hj' : ¬ j = k := fun e => hj e.symm
          simp [callsFor, hpc, Pc.issued, hidx, hj, hj'])
      (by simp [hpc, Pc.issued])
      (by intro j; simp [outcomesFor, printed, hpc, Pc.reported]) (by simp [hpc, Pc.reported])
      (by simp [writeCalls, hpc, Pc.issued]) (by simp [outcomes, printed, hpc, Pc.reported])
    simpa using this
  · have := inv_set_pc hinv hw hmain .release s.sem s.wg
      [.print (outcomeLine w.idx s.toRevoke.length w.id (c.write w.idx (revokePath w.id)))]
      (by simp [hpc, Pc.holds]) (by simp [hpc, Pc.live]) (by omega)
      (by intro j; simp [callsFor, hpc, Pc.issued]) (by simp [hpc, Pc.issued])
      (by
        intro j
        by_cases hj : k = j
        · simp [outcomesFor, printed, outcomeLine_seq, hpc, Pc.reported, hidx, hj]
        · have hj' : ¬ j = k := fun e => hj e.symm
          simp [outcomesFor, printed, outcomeLine_seq, hpc, Pc.reported, hidx, hj, hj'])
      (by simp [hpc, Pc.reported])
      (by simp [writeCalls, hpc, Pc.issued])
      (by simp [outcomes, printed, outcomeLine_seq, hpc, Pc.reported])
    simpa using this
  · have := inv_set_pc hinv hw hmain .signal (s.sem - 1) s.wg []
      (by simp [hpc, Pc.holds]; omega) (by simp [hpc, Pc.live]) (by omega)
      (by intro j; simp [callsFor, hpc, Pc.issued]) (by simp [hpc, Pc.issued])
      (by intro j; simp [outcomesFor, printed, hpc, Pc.reported]) (by simp [hpc, Pc.reported])
      (by simp [writeCalls, hpc, Pc.issued]) (by simp [outcomes, printed, hpc, Pc.reported])
    simpa using this
  · have := inv_set_pc hinv hw hmain .done s.sem (s.wg - 1) []
      (by simp [hpc, Pc.holds]) (by simp [hpc, Pc.live]; omega) (by omega)
      (by intro j; simp [callsFor, hpc, Pc.issued]) (by simp [hpc, Pc.issued])
      (by intro j; simp [outcomesFor, printed, hpc, Pc.reported]) (by simp [hpc, Pc.reported])
      (by simp [writeCalls, hpc, Pc.issued]) (by simp [outcomes, printed, hpc, Pc.reported])
    simpa using this
  · simp [hpc, Pc.live] at hmemL
    omega

theorem inv_stepMain {c : Client} {s s' : State} (hinv : Inv c s)
    (h : stepMain s = some s') : Inv c s' := by
  rcases stepMain_cases h with ⟨i, hm, hnone, rfl⟩ | ⟨i, l, hm, hl, hid, rfl⟩ |
    ⟨i, l, id, hm, hl, hid, rfl⟩ | ⟨hm, hwg, rfl⟩
  · have hlen := hinv.at_dispatch i hm
    have hle := hinv.len_le
    have hge : s.toRevoke.length ≤ i := by
      rcases Nat.lt_or_ge i s.toRevoke.length with h | h
      · simp [List.getElem?_eq_getElem h] at hnone
      · exact h
    exact
      { sem_eq := hinv.sem_eq, wg_eq := hinv.wg_eq, sem_le := hinv.sem_le, args := hinv.args,
        len_le := hinv.len_le, at_dispatch := fun j hj => by simp at hj,
        at_wait := fun _ => by simp only; omega,
        at_finish := fun hf => by simp at hf,
        calls := hinv.calls, outs := hinv.outs, ncalls := hinv.ncalls, nouts := hinv.nouts }
  · exact
      { sem_eq := hinv.sem_eq, wg_eq := hinv.wg_eq, sem_le := hinv.sem_le, args := hinv.args,
        len_le := hinv.len_le, at_dispatch := fun j hj => by simp at hj,
        at_wait := fun hf => by simp at hf,
        at_finish := fun hf => by simp at hf,
        calls := hinv.calls, outs := hinv.outs, ncalls := hinv.ncalls, nouts := hinv.nouts }
  · have hlen := hinv.at_dispatch i hm
    have hlt : i < s.toRevoke.length := by
      rcases Nat.lt_or_ge i s.toRevoke.length with h | h
      · exact h
      · rw [List.getElem?_eq_none h] at hl
        cases hl
    have hget : ∀ j : Nat, (s.workers ++ [(⟨i, id, .acquire⟩ : Worker)])[j]? =
        if j < i then s.workers[j]? else if j = i then some ⟨i, id, .acquire⟩ else none := by
      intro j
      by_cases hj : j < i
      · rw [List.getElem?_append_left (by omega)]
        simp [hj]
      · rw [List.getElem?_append_right (by omega)]
        by_cases hji : j = i
        · simp [hji, hlen]
        · have : j - s.workers.length ≠ 0 := by omega
          simp [hj, hji]
          omega
    have hnone : ∀ j : Nat, i ≤ j → s.workers[j]? = none := by
      intro j hj
      exact List.getElem?_eq_none (by omega)
    refine
      { sem_eq := ?_, wg_eq := ?_, sem_le := hinv.sem_le, args := ?_, len_le := ?_,
        at_dispatch := ?_, at_wait := fun hf => by simp at hf,
        at_finish := fun hf => by simp at hf,
        calls := ?_, outs := ?_, ncalls := ?_, nouts := ?_ }
    · simp only [tally_append]
      have := hinv.sem_eq
      simp [tally, Pc.holds]
      simpa [tally] using this
    · simp only [tally_append]
      have := hinv.wg_eq
      simp [tally, Pc.live] at this ⊢
      omega
    · intro j w hj
      simp only at hj ⊢
      rw [hget] at hj
      split at hj
      · exact hinv.args j w hj
      · split at hj
        · rename_i hji
          cases hj
          subst hji
          simp [hl, hid]
        · cases hj
    · simp only [List.length_append, List.length_singleton]
      omega
    · intro j hj
      simp at hj
      simp only [List.length_append, List.length_singleton]
      omega
    · intro j
      simp only
      rw [hinv.calls j, hget j]
      by_cases hj : j < i
      · simp [hj]
      · rw [hnone j (by omega)]
        by_cases hji : j = i
        · simp [hj, hji, Pc.issued]
        · simp [hj, hji]
    · intro j
      simp only
      rw [hinv.outs j, hget j]
      by_cases hj : j < i
      · simp [hj]
      · rw [hnone j (by omega)]
        by_cases hji : j = i
        · simp [hj, hji, Pc.reported]
        · simp [hj, hji]
    · have := hinv.ncalls
      simp only [tally_append]
      simp [tally, Pc.issued] at this ⊢
      exact this
    · have := hinv.nouts
      simp only [tally_append]
      simp [tally, Pc.reported] at this ⊢
      exact this
  · have hlen := hinv.at_wait hm
    refine
      { sem_eq := hinv.sem_eq, wg_eq := hinv.wg_eq, sem_le := hinv.sem_le, args := hinv.args,
        len_le := hinv.len_le, at_dispatch := fun j hj => by simp at hj,
        at_wait := fun hf => by simp at hf,
        at_finish := fun _ => ⟨hlen, by rw [← hinv.wg_eq]; exact hwg, by simp⟩,
        calls := ?_, outs := ?_, ncalls := ?_, nouts := ?_ }
    · intro j
      simp only
      rw [callsFor_append, hinv.calls j]
      simp [callsFor]
    · intro j
      simp only
      rw [outcomesFor_append, hinv.outs j]
      simp [outcomesFor, printed, Line.seq]
    · simp only [writeCalls_append]
      simpa [writeCalls] using hinv.ncalls
    · simp only [outcomes_append]
      simpa [outcomes, printed, Line.seq] using hinv.nouts

theorem inv_step {c : Client} {s s' : State} {a : Action} (hinv : Inv c s)
    (h : step c s a = some s') : Inv c s' := by
  cases a with
  | main => exact inv_stepMain hinv h
  | worker k => exact inv_stepWorker hinv h

theorem inv_run {c : Client} {s : State} (hinv : Inv c s) (acts : List Action) :
    Inv c (run c s acts) := by
  induction acts generalizing s with
  | nil => exact hinv
  | cons a acts ih =>
    simp only [run]
    cases hstep : step c s a with
    | none => exact ih hinv
    | some s' => exact ih (inv_step hinv hstep)

theorem inv_poolInit (c : Client) (sel : List Value) (p : Int) (tr : List Event)
    (hcalls : writeCalls tr = []) (houts : outcomes tr = []) :
    Inv c (poolInit sel p tr) := by
  unfold poolInit
  split
  all_goals
    exact
      { sem_eq := rfl, wg_eq := rfl, sem_le := Nat.zero_le _, args := fun k w h => by simp at h,
        len_le := Nat.zero_le _, at_dispatch := fun i hi => by simp at hi ⊢; try omega,
        at_wait := fun hf => by simp at hf,
        at_finish := fun hf => by simp at hf,
        calls := fun k => by simp [callsFor_nil_of_writeCalls k tr hcalls],
        outs := fun k => by simp [outcomesFor_nil_of_outcomes k tr houts],
        ncalls := by simp [hcalls, tally], nouts := by simp [houts, tally] }

/-! ## No deadlock, and termination -/

theorem good_step {c : Client} {s s' : State} {a : Action} (hg : Good c s)
    (h : step c s a = some s') : Good c s' := by
  have hinv' := inv_step hg.inv h
  cases a with
  | main =>
    rcases stepMain_cases h with ⟨i, hm, hnone, rfl⟩ | ⟨i, l, hm, hl, hid, rfl⟩ |
      ⟨i, l, id, hm, hl, hid, rfl⟩ | ⟨hm, hwg, rfl⟩
    · exact ⟨hinv', hg.wf, hg.cap, fun e he => by simp at he⟩
    · have hmem : l ∈ s.toRevoke := List.getElem?_mem hl
      have := hg.wf
      simp only [wfLeases, List.all_eq_true] at this
      have := this l hmem
      simp [hid] at this
    · exact ⟨hinv', hg.wf, hg.cap, fun e he => by simp at he⟩
    · exact ⟨hinv', hg.wf, hg.cap, fun e he => by simp at he; exact he.symm⟩
  | worker k =>
    obtain ⟨hmain, w, hw, hcase⟩ := stepWorker_cases h
    rcases hcase with ⟨hpc, hlt, rfl⟩ | ⟨hpc, rfl⟩ | ⟨hpc, rfl⟩ | ⟨hpc, hlt, rfl⟩ |
      ⟨hpc, hlt, rfl⟩ | ⟨hpc, hz, rfl⟩
    · exact ⟨hinv', hg.wf, hg.cap, fun e he => absurd he (hmain e)⟩
    · exact ⟨hinv', hg.wf, hg.cap, fun e he => absurd he (hmain e)⟩
    · exact ⟨hinv', hg.wf, hg.cap, fun e he => absurd he (hmain e)⟩
    · exact ⟨hinv', hg.wf, hg.cap, fun e he => absurd he (hmain e)⟩
    · exact ⟨hinv', hg.wf, hg.cap, fun e he => absurd he (hmain e)⟩
    · have := tally_mem_le Pc.live s.workers k w hw
      have := hg.inv.wg_eq
      simp [hpc, Pc.live] at *
      omega

theorem good_run {c : Client} {s : State} (hg : Good c s) (acts : List Action) :
    Good c (run c s acts) := by
  induction acts generalizing s with
  | nil => exact hg
  | cons a acts ih =>
    simp only [run]
    cases hstep : step c s a with
    | none => exact ih hg
    | some s' => exact ih (good_step hg hstep)

theorem fuel_step {c : Client} {s s' : State} {a : Action} (hg : Good c s)
    (h : step c s a = some s') : fuel s' + 1 = fuel s := by
  have hg' := good_step hg h
  cases a with
  | main =>
    rcases stepMain_cases h with ⟨i, hm, hnone, rfl⟩ | ⟨i, l, hm, hl, hid, rfl⟩ |
      ⟨i, l, id, hm, hl, hid, rfl⟩ | ⟨hm, hwg, rfl⟩
    · have hlen := hg.inv.at_dispatch i hm
      have hle := hg.inv.len_le
      have hge : s.toRevoke.length ≤ i := by
        rcases Nat.lt_or_ge i s.toRevoke.length with h | h
        · simp [List.getElem?_eq_getElem h] at hnone
        · exact h
      simp only [fuel, hm, MainPc.remaining]
      omega
    · have := hg'.safe .panic rfl
      cases this
    · have hlen := hg.inv.at_dispatch i hm
      have hlt : i < s.toRevoke.length := by
        rcases Nat.lt_or_ge i s.toRevoke.length with h | h
        · exact h
        · rw [List.getElem?_eq_none h] at hl
          cases hl
      simp only [fuel, hm, MainPc.remaining, tally_append, List.length_append,
        List.length_singleton]
      simp only [tally, List.map_cons, List.map_nil, List.sum_cons, List.sum_nil,
        Pc.remaining]
      omega
    · simp only [fuel, hm, MainPc.remaining]
      omega
  | worker k =>
    obtain ⟨hmain, w, hw, hcase⟩ := stepWorker_cases h
    rcases hcase with ⟨hpc, hlt, rfl⟩ | ⟨hpc, rfl⟩ | ⟨hpc, rfl⟩ | ⟨hpc, hlt, rfl⟩ |
      ⟨hpc, hlt, rfl⟩ | ⟨hpc, hz, rfl⟩
    · have := tally_set Pc.remaining s.workers k w { w with pc := .call } hw
      simp only [fuel, List.length_set]
      simp only [hpc, Pc.remaining] at this
      omega
    · have := tally_set Pc.remaining s.workers k w { w with pc := .inFlight } hw
      simp only [fuel, List.length_set]
      simp only [hpc, Pc.remaining] at this
      omega
    · have := tally_set Pc.remaining s.workers k w { w with pc := .release } hw
      simp only [fuel, List.length_set]
      simp only [hpc, Pc.remaining] at this
      omega
    · have := tally_set Pc.remaining s.workers k w { w with pc := .signal } hw
      simp only [fuel, List.length_set]
      simp only [hpc, Pc.remaining] at this
      omega
    · have := tally_set Pc.remaining s.workers k w { w with pc := .done } hw
      simp only [fuel, List.length_set]
      simp only [hpc, Pc.remaining] at this
      omega
    · have := hg'.safe .panic rfl
      cases this

theorem holder_enabled {c : Client} {s : State} (hg : Good c s)
    (hmain : ∀ e, s.main ≠ .halted e) {k : Nat} {w : Worker} (hw : s.workers[k]? = some w)
    (hpc : w.pc ≠ .acquire) (hnd : w.pc ≠ .done) : ∃ s', step c s (.worker k) = some s' := by
  have hH := tally_mem_le Pc.holds s.workers k w hw
  have hL := tally_mem_le Pc.live s.workers k w hw
  have hsem := hg.inv.sem_eq
  have hwg := hg.inv.wg_eq
  simp only [step, stepWorker]
  cases hm : s.main with
  | halted e => exact absurd hm (hmain e)
  | dispatch i =>
    simp only [hw]
    cases hp : w.pc with
    | acquire => exact absurd hp hpc
    | done => exact absurd hp hnd
    | call => exact ⟨_, rfl⟩
    | inFlight => exact ⟨_, rfl⟩
    | release =>
      have : 0 < s.sem := by simp [hp, Pc.holds] at hH; omega
      simp [this]
    | signal =>
      have : 0 < s.wg := by simp [hp, Pc.live] at hL; omega
      simp [this]
  | wait =>
    simp only [hw]
    cases hp : w.pc with
    | acquire => exact absurd hp hpc
    | done => exact absurd hp hnd
    | call => exact ⟨_, rfl⟩
    | inFlight => exact ⟨_, rfl⟩
    | release =>
      have : 0 < s.sem := by simp [hp, Pc.holds] at hH; omega
      simp [this]
    | signal =>
      have : 0 < s.wg := by simp [hp, Pc.live] at hL; omega
      simp [this]

theorem progress {c : Client} {s : State} (hg : Good c s)
    (hmain : ∀ e, s.main ≠ .halted e) : ∃ a s', step c s a = some s' := by
  cases hm : s.main with
  | halted e => exact absurd hm (hmain e)
  | dispatch i =>
    refine ⟨.main, ?_⟩
    simp only [step, stepMain, hm]
    cases hl : s.toRevoke[i]? with
    | none => exact ⟨_, rfl⟩
    | some l =>
      cases hid : leaseID l with
      | none => simp only [hid]; exact ⟨_, rfl⟩
      | some id => simp only [hid]; exact ⟨_, rfl⟩
  | wait =>
    by_cases hwg : s.wg = 0
    · refine ⟨.main, ?_⟩
      simp [step, stepMain, hm, hwg]
    · have hpos : 0 < tally Pc.live s.workers := by
        have := hg.inv.wg_eq
        omega
      obtain ⟨k, w, hw, hlive⟩ := tally_pos Pc.live s.workers hpos
      have hnd : w.pc ≠ .done := by
        intro h
        simp [h, Pc.live] at hlive
      by_cases hacq : w.pc = .acquire
      · by_cases hlt : s.sem < s.capacity
        · refine ⟨.worker k, ?_⟩
          simp [step, stepWorker, hm, hw, hacq, hlt]
        · have hcap := hg.cap
          have hsem := hg.inv.sem_eq
          have hpos' : 0 < tally Pc.holds s.workers := by omega
          obtain ⟨k', w', hw', hholds⟩ := tally_pos Pc.holds s.workers hpos'
          have h1 : w'.pc ≠ .acquire := by
            intro h
            simp [h, Pc.holds] at hholds
          have h2 : w'.pc ≠ .done := by
            intro h
            simp [h, Pc.holds] at hholds
          exact ⟨.worker k', holder_enabled hg hmain hw' h1 h2⟩
      · exact ⟨.worker k, holder_enabled hg hmain hw hacq hnd⟩

theorem completes {c : Client} (n : Nat) : ∀ s : State, Good c s → fuel s ≤ n →
    ∃ acts, (run c s acts).main = .halted .finished := by
  induction n with
  | zero =>
    intro s hg hn
    by_cases hmain : ∀ e, s.main ≠ .halted e
    · obtain ⟨a, s', hstep⟩ := progress hg hmain
      have := fuel_step hg hstep
      omega
    · simp only [not_forall, not_not] at hmain
      obtain ⟨e, he⟩ := hmain
      have := hg.safe e he
      subst this
      exact ⟨[], he⟩
  | succ n ih =>
    intro s hg hn
    by_cases hmain : ∀ e, s.main ≠ .halted e
    · obtain ⟨a, s', hstep⟩ := progress hg hmain
      have hf := fuel_step hg hstep
      obtain ⟨acts, hacts⟩ := ih s' (good_step hg hstep) (by omega)
      exact ⟨a :: acts, by simpa [run, hstep] using hacts⟩
    · simp only [not_forall, not_not] at hmain
      obtain ⟨e, he⟩ := hmain
      have := hg.safe e he
      subst this
      exact ⟨[], he⟩

theorem run_append (c : Client) (s : State) (acts more : List Action) :
    run c s (acts ++ more) = run c (run c s acts) more := by
  induction acts generalizing s with
  | nil => rfl
  | cons a acts ih => exact ih _

theorem step_fixed {c : Client} {s s' : State} {a : Action} (h : step c s a = some s') :
    s'.toRevoke = s.toRevoke ∧ s'.capacity = s.capacity := by
  cases a with
  | main =>
    rcases stepMain_cases h with ⟨i, hm, hnone, rfl⟩ | ⟨i, l, hm, hl, hid, rfl⟩ |
      ⟨i, l, id, hm, hl, hid, rfl⟩ | ⟨hm, hwg, rfl⟩ <;> exact ⟨rfl, rfl⟩
  | worker k =>
    obtain ⟨hmain, w, hw, hcase⟩ := stepWorker_cases h
    rcases hcase with ⟨hpc, hlt, rfl⟩ | ⟨hpc, rfl⟩ | ⟨hpc, rfl⟩ | ⟨hpc, hlt, rfl⟩ |
      ⟨hpc, hlt, rfl⟩ | ⟨hpc, hz, rfl⟩ <;> exact ⟨rfl, rfl⟩

theorem run_fixed (c : Client) (s : State) (acts : List Action) :
    (run c s acts).toRevoke = s.toRevoke ∧ (run c s acts).capacity = s.capacity := by
  induction acts generalizing s with
  | nil => exact ⟨rfl, rfl⟩
  | cons a acts ih =>
    simp only [run]
    cases hstep : step c s a with
    | none => exact ih s
    | some s' =>
      have h1 := step_fixed hstep
      have h2 := ih s'
      simp only [Option.getD_some]
      exact ⟨h2.1.trans h1.1, h2.2.trans h1.2⟩

theorem halted_stuck {c : Client} {s : State} {e : Exit} (h : s.main = .halted e)
    (acts : List Action) : run c s acts = s := by
  induction acts with
  | nil => rfl
  | cons a acts ih =>
    have : step c s a = none := by
      cases a with
      | main => simp [step, stepMain, h]
      | worker k => simp [step, stepWorker, h]
    simp only [run, this, Option.getD_none]
    exact ih

theorem good_poolInit (c : Client) (sel : List Value) (p : Int) (tr : List Event)
    (hwf : wfLeases sel = true) (hp : 1 ≤ p)
    (hcalls : writeCalls tr = []) (houts : outcomes tr = []) :
    Good c (poolInit sel p tr) := by
  have hinv := inv_poolInit c sel p tr hcalls houts
  have hnp : ¬ p < 0 := by omega
  refine ⟨hinv, ?_, ?_, ?_⟩
  · simpa [poolInit, hnp] using hwf
  · simp only [poolInit, hnp, if_false]
    omega
  · intro e he
    simp [poolInit, hnp] at he

theorem fuel_poolInit (sel : List Value) (p : Int) (tr : List Event) (hp : 0 ≤ p) :
    fuel (poolInit sel p tr) = 6 * sel.length + 2 := by
  have hnp : ¬ p < 0 := by omega
  simp only [poolInit, hnp, if_false, fuel, MainPc.remaining, tally, List.map_nil,
    List.sum_nil, List.length_nil]
  omega

/-! ## What a run of step 4 shows -/

theorem finished_summary {c : Client} {s : State} (hinv : Inv c s)
    (hfin : s.main = .halted .finished) :
    (writeCalls s.trace).length = s.toRevoke.length ∧
    (outcomes s.trace).length = s.toRevoke.length ∧
    s.trace.getLast? = some (.print .completed) ∧
    ∀ (k : Nat) (l : Value), s.toRevoke[k]? = some l → ∃ id, leaseID l = some id ∧
      callsFor k s.trace = [revokePath id] ∧
      outcomesFor k s.trace =
        [outcomeLine k s.toRevoke.length id (c.write k (revokePath id))] := by
  obtain ⟨hlen, hlive, hlast⟩ := hinv.at_finish hfin
  refine ⟨?_, ?_, hlast, ?_⟩
  · rw [hinv.ncalls, tally_all_done Pc.issued _ hlive, hlen]
    simp [Pc.issued]
  · rw [hinv.nouts, tally_all_done Pc.reported _ hlive, hlen]
    simp [Pc.reported]
  · intro k l hl
    have hk : k < s.workers.length := by
      rcases Nat.lt_or_ge k s.toRevoke.length with h | h
      · omega
      · rw [List.getElem?_eq_none h] at hl
        cases hl
    have hw : s.workers[k]? = some s.workers[k] := List.getElem?_eq_getElem hk
    have hargs := (hinv.args k _ hw).2
    have hdone := done_of_live_zero s.workers hlive k _ hw
    refine ⟨s.workers[k].id, ?_, ?_, ?_⟩
    · simpa [hl] using hargs
    · rw [hinv.calls k]
      simp [hw, hdone, Pc.issued]
    · rw [hinv.outs k]
      simp [hw, hdone, Pc.reported]

theorem at_most_once {c : Client} {s : State} (hinv : Inv c s) (k : Nat) :
    (callsFor k s.trace).length ≤ 1 ∧ (outcomesFor k s.trace).length ≤ 1 := by
  rw [hinv.calls k, hinv.outs k]
  constructor
  · split
    · split <;> simp
    · simp
  · split
    · split <;> simp
    · simp

theorem inFlight_le_capacity {c : Client} {s : State} (hinv : Inv c s) :
    inFlight s ≤ s.capacity := by
  have h1 : tally Pc.flying s.workers ≤ tally Pc.holds s.workers :=
    tally_le_tally _ _ (fun pc => by cases pc <;> simp [Pc.flying, Pc.holds]) _
  have h2 := hinv.sem_eq
  have h3 := hinv.sem_le
  simp only [inFlight]
  omega

theorem poolInit_capacity (sel : List Value) (p : Int) (tr : List Event) :
    ((poolInit sel p tr).capacity : Int) = max 0 p := by
  unfold poolInit
  split
  · simp only [Nat.cast_zero]
    omega
  · simp only [Int.toNat_eq_max]
    omega

theorem poolInit_toRevoke (sel : List Value) (p : Int) (tr : List Event) :
    (poolInit sel p tr).toRevoke = sel := by
  unfold poolInit
  split <;> rfl

/-- With an unbuffered semaphore no goroutine gets past its send. -/
theorem unbuffered_waiting {c : Client} {s : State} (hcap : s.capacity = 0)
    (hacq : ∀ w ∈ s.workers, w.pc = .acquire) (acts : List Action) :
    ∀ w ∈ (run c s acts).workers, w.pc = .acquire := by
  induction acts generalizing s with
  | nil => exact hacq
  | cons a acts ih =>
    simp only [run]
    cases hstep : step c s a with
    | none => exact ih hcap hacq
    | some s' =>
      have hfix := step_fixed hstep
      refine ih (hfix.2.trans hcap) ?_
      cases a with
      | main =>
        rcases stepMain_cases hstep with ⟨i, hm, hnone, rfl⟩ | ⟨i, l, hm, hl, hid, rfl⟩ |
          ⟨i, l, id, hm, hl, hid, rfl⟩ | ⟨hm, hwg, rfl⟩
        · exact hacq
        · exact hacq
        · intro w hw
          have hw : w ∈ s.workers ∨ w = ⟨i, id, .acquire⟩ := by
            simpa using hw
          rcases hw with hw | hw
          · exact hacq w hw
          · subst hw
            rfl
        · exact hacq
      | worker k =>
        obtain ⟨hmain, w, hw, hcase⟩ := stepWorker_cases hstep
        have hwacq := hacq w (List.getElem?_mem hw)
        rcases hcase with ⟨hpc, hlt, rfl⟩ | ⟨hpc, rfl⟩ | ⟨hpc, rfl⟩ | ⟨hpc, hlt, rfl⟩ |
          ⟨hpc, hlt, rfl⟩ | ⟨hpc, hz, rfl⟩
        · omega
        all_goals (rw [hwacq] at hpc; cases hpc)

theorem unbuffered_never_finishes {c : Client} (sel : List Value) (tr : List Event)
    (hne : sel ≠ []) (hcalls : writeCalls tr = []) (houts : outcomes tr = [])
    (acts : List Action) :
    (run c (poolInit sel 0 tr) acts).main ≠ .halted .finished ∧
    outcomes (run c (poolInit sel 0 tr) acts).trace = [] ∧
    writeCalls (run c (poolInit sel 0 tr) acts).trace = [] := by
  have hinv := inv_run (inv_poolInit c sel 0 tr hcalls houts) acts
  have hacq := unbuffered_waiting (c := c) (s := poolInit sel 0 tr) (by simp [poolInit])
    (by simp [poolInit]) acts
  have hzero : ∀ f : Pc → Nat, f .acquire = 0 →
      tally f (run c (poolInit sel 0 tr) acts).workers = 0 := by
    intro f hf
    generalize (run c (poolInit sel 0 tr) acts).workers = ws at hacq
    induction ws with
    | nil => rfl
    | cons a as ih =>
      have ha := hacq a (by simp)
      have := ih (fun w hw => hacq w (by simp [hw]))
      simp [tally, ha, hf] at this ⊢
      exact this
  refine ⟨?_, ?_, ?_⟩
  · intro hfin
    obtain ⟨hlen, hlive, _⟩ := hinv.at_finish hfin
    rw [(run_fixed c _ acts).1, poolInit_toRevoke] at hlen
    have hpos : 0 < sel.length := List.length_pos.mpr hne
    have hw : (run c (poolInit sel 0 tr) acts).workers[0]? =
        some (run c (poolInit sel 0 tr) acts).workers[0] :=
      List.getElem?_eq_getElem (by omega)
    have h1 := done_of_live_zero _ hlive 0 _ hw
    have h2 := hacq _ (List.getElem?_mem hw)
    rw [h1] at h2
    cases h2
  · have := hinv.nouts
    rw [hzero Pc.reported rfl] at this
    exact List.length_eq_zero.mp this
  · have := hinv.ncalls
    rw [hzero Pc.issued rfl] at this
    exact List.length_eq_zero.mp this

theorem completed_step {c : Client} {s s' : State} {a : Action}
    (h : Event.print .completed ∈ s.trace → s.main = .halted .finished)
    (hstep : step c s a = some s') :
    Event.print .completed ∈ s'.trace → s'.main = .halted .finished := by
  cases a with
  | main =>
    rcases stepMain_cases hstep with ⟨i, hm, hnone, rfl⟩ | ⟨i, l, hm, hl, hid, rfl⟩ |
      ⟨i, l, id, hm, hl, hid, rfl⟩ | ⟨hm, hwg, rfl⟩
    · intro hc
      have := h hc
      rw [hm] at this
      cases this
    · intro hc
      have := h hc
      rw [hm] at this
      cases this
    · intro hc
      have := h hc
      rw [hm] at this
      cases this
    · intro _
      rfl
  | worker k =>
    obtain ⟨hmain, w, hw, hcase⟩ := stepWorker_cases hstep
    have hnot : Event.print .completed ∉ s.trace := fun hc => hmain _ (h hc)
    rcases hcase with ⟨hpc, hlt, rfl⟩ | ⟨hpc, rfl⟩ | ⟨hpc, rfl⟩ | ⟨hpc, hlt, rfl⟩ |
      ⟨hpc, hlt, rfl⟩ | ⟨hpc, hz, rfl⟩
    · intro hc
      exact absurd hc hnot
    · intro hc
      rcases List.mem_append.mp hc with h1 | h1
      · exact absurd h1 hnot
      · simp at h1
    · intro hc
      rcases List.mem_append.mp hc with h1 | h1
      · exact absurd h1 hnot
      · cases hx : c.write w.idx (revokePath w.id) <;> simp [outcomeLine, hx] at h1
    · intro hc
      exact absurd hc hnot
    · intro hc
      exact absurd hc hnot
    · intro hc
      exact absurd hc hnot

theorem completed_run {c : Client} {s : State}
    (h : Event.print .completed ∈ s.trace → s.main = .halted .finished)
    (acts : List Action) :
    Event.print .completed ∈ (run c s acts).trace →
      (run c s acts).main = .halted .finished := by
  induction acts generalizing s with
  | nil => exact h
  | cons a acts ih =>
    simp only [run]
    cases hstep : step c s a with
    | none => exact ih h
    | some s' => exact ih (completed_step h hstep)

/-- With an unbuffered semaphore and a selected item, no schedule prints an outcome line
or the completion report, issues a revoke call or finishes. -/
theorem unbuffered_silent {c : Client} (sel : List Value) (acts : List Action)
    (hne : sel ≠ []) :
    (run c (poolInit sel 0 []) acts).main ≠ .halted .finished ∧
    outcomes (run c (poolInit sel 0 []) acts).trace = [] ∧
    writeCalls (run c (poolInit sel 0 []) acts).trace = [] ∧
    Event.print .completed ∉ (run c (poolInit sel 0 []) acts).trace := by
  obtain ⟨h1, h2, h3⟩ := unbuffered_never_finishes (c := c) sel [] hne rfl rfl acts
  refine ⟨h1, h2, h3, ?_⟩
  intro hc
  exact h1 (completed_run (c := c) (s := poolInit sel 0 []) (by simp [poolInit]) acts hc)

/-! ## The sequential part of `runCleanup` -/

theorem prologue_of_list (u : Unicode) (c : Client) (limit : Int) (autoApprove : Bool)
    (response : String) (sec : Secret) (allLeases : List Value)
    (hfetch : c.readWithData = (some sec, none))
    (hleases : mapIndex sec.Data "leases" = .list allLeases) :
    cleanupPrologue u c limit autoApprove response =
      if autoApprove = true then
        .proceed [.readCall, .print (.found allLeases.length),
          .print (.preparing (toRevoke allLeases limit).length)] (toRevoke allLeases limit)
      else if confirmed u response = true then
        .proceed [.readCall, .print (.found allLeases.length),
          .print (.preparing (toRevoke allLeases limit).length),
          .print (.prompt (toRevoke allLeases limit).length), .stdinRead]
          (toRevoke allLeases limit)
      else
        .halt [.readCall, .print (.found allLeases.length),
          .print (.preparing (toRevoke allLeases limit).length),
          .print (.prompt (toRevoke allLeases limit).length), .stdinRead,
          .print .cancelled] .early := by
  have hnil : (Value.list allLeases).isNil = false := rfl
  cases autoApprove with
  | true => simp [cleanupPrologue, hfetch, hleases, hnil, asList]
  | false =>
    cases hy : confirmed u response with
    | true => simp [cleanupPrologue, hfetch, hleases, hnil, asList, hy]
    | false => simp [cleanupPrologue, hfetch, hleases, hnil, asList, hy]

/-! ## The loops of the report -/

theorem asStrings_eq (vs : List Value) (ss : List String) (h : asStrings vs = some ss) :
    vs = ss.map .str := by
  induction vs generalizing ss with
  | nil =>
    simp only [asStrings, Option.some.injEq] at h
    subst h
    rfl
  | cons v vs ih =>
    cases v with
    | str s =>
      cases hvs : asStrings vs with
      | none => simp [asStrings, asString, hvs] at h
      | some ss' =>
        simp only [asStrings, asString, hvs, Option.some.injEq] at h
        subst h
        simp [ih ss' hvs]
    | null => simp [asStrings, asString] at h
    | num n => simp [asStrings, asString] at h
    | bool b => simp [asStrings, asString] at h
    | list xs => simp [asStrings, asString] at h
    | obj kvs => simp [asStrings, asString] at h

theorem roleLoop_ok (c : Client) (mount : String) (roles : List String) (mountTotal : Nat)
    (tr : List Event)
    (hwf : ∀ role ∈ roles, wfLeaseKeys (c.list (leasesPath mount role)) = true ∧
      keysGuarded (c.list (leasesPath mount role)) = true) :
    ∃ tr', roleLoop c mount (roles.map .str) mountTotal tr =
        .ok (mountTotal + (roles.map (roleCount c mount)).sum, tr') ∧
      printed tr' = printed tr ++ roleLines c mount roles := by
  induction roles generalizing mountTotal tr with
  | nil => exact ⟨tr, rfl, by simp [roleLines]⟩
  | cons role rest ih =>
    have hrest : ∀ r ∈ rest, wfLeaseKeys (c.list (leasesPath mount r)) = true ∧
        keysGuarded (c.list (leasesPath mount r)) = true :=
      fun r hr => hwf r (by simp [hr])
    obtain ⟨hrole, hguard⟩ := hwf role (by simp)
    simp only [List.map_cons, roleLoop, asString]
    have hpath : "sys/leases/lookup/" ++ mount ++ "creds/" ++ role = leasesPath mount role :=
      rfl
    rw [hpath]
    cases hsec : (c.list (leasesPath mount role)).1 with
    | none =>
      obtain ⟨tr', h1, h2⟩ := ih mountTotal (tr ++ [.listCall (leasesPath mount role)]) hrest
      refine ⟨tr', ?_, ?_⟩
      · simp only [h1, roleCount, leaseKeysOf, hsec, List.sum_cons, Nat.zero_add]
      · rw [h2]
        simp [printed, roleLines, leaseKeysOf, hsec]
    | some sec =>
      cases hd : sec.Data with
      | none =>
        have hnull : mapIndex sec.Data "keys" = .null := by
          rw [hd]
          rfl
        have hnull' : mapIndex none "keys" = .null := rfl
        obtain ⟨tr', h1, h2⟩ := ih mountTotal (tr ++ [.listCall (leasesPath mount role)]) hrest
        refine ⟨tr', ?_, ?_⟩
        · simp only [hd, h1, roleCount, leaseKeysOf, hsec, hnull', asList, List.sum_cons,
            Nat.zero_add]
        · rw [h2]
          simp [printed, roleLines, leaseKeysOf, hsec, hnull, asList]
      | some d =>
        simp only [wfLeaseKeys, hsec] at hrole
        simp only [keysGuarded, hsec, hd, Option.isSome_some, Bool.true_and] at hguard
        rw [hd] at hrole
        cases hv : mapIndex (some d) "keys" with
        | list ks =>
          have hkeys : mapIndex sec.Data "keys" = .list ks := by
            rw [hd]
            exact hv
          obtain ⟨tr', h1, h2⟩ := ih (mountTotal + ks.length)
            (tr ++ [.listCall (leasesPath mount role)] ++
              [.print (.role (TrimSuffix role "/") ks.length)]) hrest
          refine ⟨tr', ?_, ?_⟩
          · simp only [hd, hv, asList, h1, roleCount, leaseKeysOf, hsec, hkeys,
              List.sum_cons, Nat.add_assoc]
          · rw [h2]
            simp [printed, roleLines, leaseKeysOf, hsec, hkeys, asList]
        | null => simp [hv, Value.isNil] at hguard
        | str x => simp [hv] at hrole
        | num n => simp [hv] at hrole
        | bool b => simp [hv] at hrole
        | obj kvs => simp [hv] at hrole

theorem mountLoop_ok (c : Client) (mounts : List String) (grandTotal : Nat)
    (tr : List Event)
    (hwf : ∀ mount ∈ mounts, wfNames (c.list (rolesPath mount)) = true ∧
      ∀ role ∈ (namesOf (c.list (rolesPath mount))).getD [],
        wfLeaseKeys (c.list (leasesPath mount role)) = true ∧
        keysGuarded (c.list (leasesPath mount role)) = true) :
    ∃ tr', mountLoop c (mounts.map .str) grandTotal tr =
        .ok (grandTotal + (mounts.map (subtotal c)).sum, tr') ∧
      printed tr' = printed tr ++ mounts.flatMap (mountBlock c) := by
  induction mounts generalizing grandTotal tr with
  | nil => exact ⟨tr, rfl, by simp⟩
  | cons mount rest ih =>
    have hrest : ∀ m ∈ rest, wfNames (c.list (rolesPath m)) = true ∧
        ∀ role ∈ (namesOf (c.list (rolesPath m))).getD [],
          wfLeaseKeys (c.list (leasesPath m role)) = true ∧
          keysGuarded (c.list (leasesPath m role)) = true :=
      fun m hm => hwf m (by simp [hm])
    obtain ⟨hnames, hroles⟩ := hwf mount (by simp)
    simp only [List.map_cons, mountLoop, asString]
    have hpath : "sys/leases/lookup/" ++ mount ++ "creds" = rolesPath mount := rfl
    rw [hpath]
    cases hsec : (c.list (rolesPath mount)).1 with
    | none =>
      obtain ⟨tr', h1, h2⟩ := ih grandTotal
        (tr ++ [.print (.mount (TrimSuffix mount "/"))] ++ [.listCall (rolesPath mount)] ++
          [.print .noCreds]) hrest
      refine ⟨tr', ?_, ?_⟩
      · simp only [h1, subtotal, namesOf, hsec, List.sum_cons, Nat.zero_add, Nat.add_zero]
      · rw [h2]
        simp [printed, mountBlock, namesOf, hsec]
    | some sec =>
      simp only [wfNames, hsec] at hnames
      simp only [namesOf, hsec] at hroles
      cases hv : mapIndex sec.Data "keys" with
      | null =>
        obtain ⟨tr', h1, h2⟩ := ih grandTotal
          (tr ++ [.print (.mount (TrimSuffix mount "/"))] ++ [.listCall (rolesPath mount)] ++
            [.print .noCreds]) hrest
        refine ⟨tr', ?_, ?_⟩
        · simp only [Value.isNil, Bool.not_true, Bool.and_false, Bool.false_eq_true,
            if_false, h1, subtotal, namesOf, hsec, hv, List.sum_cons, Nat.zero_add,
            Nat.add_zero]
        · rw [h2]
          simp [printed, mountBlock, namesOf, hsec, hv]
      | list vs =>
        rw [hv] at hnames hroles
        simp only at hnames hroles
        cases hss : asStrings vs with
        | none => simp [hss] at hnames
        | some roles =>
          have hvs := asStrings_eq vs roles hss
          subst hvs
          have hsome : sec.Data.isSome = true := by
            cases hd : sec.Data with
            | none => simp [hd, mapIndex] at hv
            | some d => rfl
          rw [hss] at hroles
          simp only [Option.getD_some] at hroles
          obtain ⟨tr1, hr1, hr2⟩ := roleLoop_ok c mount roles 0
            (tr ++ [.print (.mount (TrimSuffix mount "/"))] ++ [.listCall (rolesPath mount)])
            hroles
          simp only [Nat.zero_add] at hr1
          obtain ⟨tr', h1, h2⟩ := ih (grandTotal + (roles.map (roleCount c mount)).sum)
            (tr1 ++ [.print (.mountTotal (TrimSuffix mount "/")
              ((roles.map (roleCount c mount)).sum))]) hrest
          refine ⟨tr', ?_, ?_⟩
          · simp only [hsome, Value.isNil, Bool.not_false, Bool.and_self, if_true, asList,
              hr1, h1, subtotal, namesOf, hsec, hv, hss, List.sum_cons, Nat.zero_add,
              Nat.add_assoc]
          · rw [h2, printed_append, hr2]
            simp [printed, mountBlock, namesOf, hsec, hv, hss, subtotal]
      | str s => simp [hv] at hnames
      | num n => simp [hv] at hnames
      | bool b => simp [hv] at hnames
      | obj kvs => simp [hv] at hnames

/-- The rollup on the directories for which the test of line 86 is enough.  For every
well-formed two-level directory with the mounts `mounts` in which no lease listing is a
non-nil map without "keys", the run ends normally and prints, after the header, for each
mount in turn its name, a line for each role whose lease list is present, and the
subtotal equal to the sum of the lease counts of the roles of the mount (or the remark
that the mount has no roles, which then contributes 0), and at the end the grand total
equal to the sum of the subtotals of all mounts. -/
theorem report_rollup_guarded (c : Client) (mounts : List String)
    (hwf : wellFormed c mounts = true) (hguard : allKeysGuarded c mounts = true) :
    (runReport c).exit = .finished ∧
    printed (runReport c).trace =
      .reportHeader ::
        (mounts.flatMap (fun mount =>
          .mount (TrimSuffix mount "/") ::
            match namesOf (c.list (rolesPath mount)) with
            | some roles =>
              roleLines c mount roles ++
                [.mountTotal (TrimSuffix mount "/") ((roles.map (roleCount c mount)).sum)]
            | none => [.noCreds]) ++
          [.grandTotal ((mounts.map (subtotal c)).sum)]) := by
  have hblock : (fun mount =>
      Line.mount (TrimSuffix mount "/") ::
        match namesOf (c.list (rolesPath mount)) with
        | some roles =>
          roleLines c mount roles ++
            [.mountTotal (TrimSuffix mount "/") ((roles.map (roleCount c mount)).sum)]
        | none => [.noCreds]) = mountBlock c := by
    funext mount
    simp only [mountBlock, subtotal]
    cases namesOf (c.list (rolesPath mount)) <;> rfl
  rw [hblock]
  simp only [wellFormed, Bool.and_eq_true, List.all_eq_true, beq_iff_eq,
    Option.isNone_iff_eq_none] at hwf
  simp only [allKeysGuarded, List.all_eq_true] at hguard
  obtain ⟨⟨herr, hmounts⟩, hall⟩ := hwf
  have hboth : ∀ mount ∈ mounts, wfNames (c.list (rolesPath mount)) = true ∧
      ∀ role ∈ (namesOf (c.list (rolesPath mount))).getD [],
        wfLeaseKeys (c.list (leasesPath mount role)) = true ∧
        keysGuarded (c.list (leasesPath mount role)) = true :=
    fun mount hm => ⟨(hall mount hm).1,
      fun role hr => ⟨(hall mount hm).2 role hr, hguard mount hm role hr⟩⟩
  cases hr : c.list "sys/leases/lookup" with
  | mk secret err =>
    rw [hr] at herr hmounts
    simp only at herr
    subst herr
    cases secret with
    | none => simp [namesOf] at hmounts
    | some sec =>
      simp only [namesOf] at hmounts
      cases hv : mapIndex sec.Data "keys" with
      | list vs =>
        rw [hv] at hmounts
        simp only at hmounts
        have hvs := asStrings_eq vs mounts hmounts
        obtain ⟨tr', h1, h2⟩ := mountLoop_ok c mounts 0
          [.print .reportHeader, .listCall "sys/leases/lookup"] hboth
        subst hvs
        simp only [runReport, hr, hv, Value.isNil, asList, h1, Bool.false_eq_true, if_false]
        refine ⟨trivial, ?_⟩
        rw [printed_append, h2]
        simp [printed]
      | null => simp [hv] at hmounts
      | str s => simp [hv] at hmounts
      | num n => simp [hv] at hmounts
      | bool b => simp [hv] at hmounts
      | obj kvs => simp [hv] at hmounts

/-- Scenario A: mount "db/" with the roles "readonly" (5 leases) and "admin" (2 leases)
and mount "aws/" without roles give the subtotals 7 and 0 and the grand total 7. -/
theorem scenarioA_report :
    wellFormed scenarioA ["db/", "aws/"] = true ∧
    allKeysGuarded scenarioA ["db/", "aws/"] = true ∧
    (runReport scenarioA).exit = .finished ∧
    subtotal scenarioA "db/" = 7 ∧ subtotal scenarioA "aws/" = 0 ∧
    printed (runReport scenarioA).trace =
      [.reportHeader, .mount "db", .role "readonly" 5, .role "admin" 2, .mountTotal "db" 7,
        .mount "aws", .noCreds, .grandTotal 7] :=
  ⟨by decide, by decide,
    (report_rollup_guarded scenarioA ["db/", "aws/"] (by decide) (by decide)).1,
    by decide, by decide,
    (report_rollup_guarded scenarioA ["db/", "aws/"] (by decide) (by decide)).2.trans
      (by decide)⟩

/-! ## Step 4 starts from a trace without revoke calls -/

theorem prologue_trace_clean (u : Unicode) (c : Client) (limit : Int) (autoApprove : Bool)
    (response : String) (tr : List Event) (sel : List Value)
    (h : cleanupPrologue u c limit autoApprove response = .proceed tr sel) :
    writeCalls tr = [] ∧ outcomes tr = [] := by
  unfold cleanupPrologue at h
  split at h
  split at h
  · cases h
  · split at h
    · cases h
    · split at h
      · cases h
      · split at h
        · cases h
        · simp only at h
          split at h
          · split at h
            · cases h
            · cases h
              exact ⟨rfl, rfl⟩
          · cases h
            exact ⟨rfl, rfl⟩

/-! ## The claims -/

/-- C1. Batch selection in `runCleanup`: for every candidate list of length N and every
integer limit L, the slice `toRevoke` is a prefix of the candidates in their order; its
length is N when L ≤ 0 or L ≥ N, and L when 0 < L < N. -/
theorem toRevoke_prefix_length {α : Type} (allLeases : List α) (limit : Int) :
    toRevoke allLeases limit <+: allLeases ∧
    ((toRevoke allLeases limit).length : Int) =
      if limit ≤ 0 ∨ (allLeases.length : Int) ≤ limit then (allLeases.length : Int)
      else limit := by
  unfold toRevoke
  by_cases h : limit > 0 ∧ limit < (allLeases.length : Int)
  · have hne : ¬ (limit ≤ 0 ∨ (allLeases.length : Int) ≤ limit) := by omega
    simp only [h, and_self, if_true, hne, if_false, List.length_take]
    refine ⟨List.take_prefix _ _, ?_⟩
    omega
  · have hor : limit ≤ 0 ∨ (allLeases.length : Int) ≤ limit := by omega
    simp only [h, if_false, hor, if_true]
    exact ⟨List.prefix_refl _, trivial⟩

/-- C2, the run on a failing input.  The directory is well-formed: mount "db/" has the
roles "readonly" with 5 lease keys and "admin", whose lease listing is absent (a map
without a "keys" entry), and mount "aws/" has no roles; its subtotals are 5 and 0.  The
run prints the line of "readonly" and panics at the type assertion of line 87 on the
listing of "admin": no subtotal and no grand total is printed. -/
theorem rollup_lost_on_absent_keys :
    wellFormed partialKeysClient ["db/", "aws/"] = true ∧
    subtotal partialKeysClient "db/" = 5 ∧ subtotal partialKeysClient "aws/" = 0 ∧
    runReport partialKeysClient =
      ⟨[.print .reportHeader, .listCall "sys/leases/lookup", .print (.mount "db"),
        .listCall "sys/leases/lookup/db/creds",
        .listCall "sys/leases/lookup/db/creds/readonly", .print (.role "readonly" 5),
        .listCall "sys/leases/lookup/db/creds/admin"], .panic⟩ ∧
    printed (runReport partialKeysClient).trace =
      [.reportHeader, .mount "db", .role "readonly" 5] := by
  decide

/-- C3, the claim as stated fails.  With three selected well-formed leases and
concurrency 0 no schedule prints an outcome line or finishes; with concurrency -1 the
creation of the semaphore panics and no line follows. -/
theorem outcomes_missing_counterexample :
    wfLeases threeLeases = true ∧
    (∀ acts,
      outcomes (run (fetchClient threeLeases [1]) (poolInit threeLeases 0 []) acts).trace
        = [] ∧
      (run (fetchClient threeLeases [1]) (poolInit threeLeases 0 []) acts).main ≠
        .halted .finished) ∧
    (∀ acts,
      (run (fetchClient threeLeases [1]) (poolInit threeLeases (-1) []) acts).main =
        .halted .panic ∧
      (run (fetchClient threeLeases [1]) (poolInit threeLeases (-1) []) acts).trace = []) := by
  refine ⟨by decide, ?_, ?_⟩
  · intro acts
    have h := unbuffered_silent (c := fetchClient threeLeases [1]) threeLeases acts
      (by simp [threeLeases])
    exact ⟨h.2.1, h.1⟩
  · intro acts
    rw [halted_stuck (e := .panic) rfl]
    exact ⟨rfl, rfl⟩

/-- C3 as amended.  Outcome completeness and labelling in `runCleanup`: for every
selected list of well-formed leases of length T, every concurrency value `p ≥ 1`, every
assignment `c.write` of success or error to the revoke calls and every schedule: no
label is ever printed twice; a state in which the run is not over has an enabled step and
every schedule extends to a finished run; and in a finished run exactly T outcome lines
have been printed, the lines labelled `[i+1/T]` being the single line of the item at
position `i`, with its lease identifier and the result of its own call.  Here `tr` is the
trace of the steps before step 4 (`cleanupStart`, `prologue_trace_clean`). -/
theorem outcomes_complete (c : Client) (sel : List Value) (p : Int) (tr : List Event)
    (acts : List Action) (hwf : wfLeases sel = true) (hp : 1 ≤ p)
    (hcalls : writeCalls tr = []) (houts : outcomes tr = []) :
    (∀ i, (outcomesFor i (run c (poolInit sel p tr) acts).trace).length ≤ 1) ∧
    ((∀ e, (run c (poolInit sel p tr) acts).main ≠ .halted e) →
      ∃ a s', step c (run c (poolInit sel p tr) acts) a = some s') ∧
    (∃ more, (run c (poolInit sel p tr) (acts ++ more)).main = .halted .finished ∧
      (outcomes (run c (poolInit sel p tr) (acts ++ more)).trace).length = sel.length) ∧
    ((run c (poolInit sel p tr) acts).main = .halted .finished →
      (outcomes (run c (poolInit sel p tr) acts).trace).length = sel.length ∧
      ∀ (i : Nat) (l : Value), sel[i]? = some l → ∃ id, leaseID l = some id ∧
        outcomesFor i (run c (poolInit sel p tr) acts).trace =
          [match c.write i ("sys/leases/revoke-force/" ++ id) with
            | none => Line.revoked (i + 1) sel.length id
            | some e => Line.failed (i + 1) sel.length id e]) := by
  have hg := good_run (good_poolInit c sel p tr hwf hp hcalls houts) acts
  have hinv := hg.inv
  have hsel : ∀ acts', (run c (poolInit sel p tr) acts').toRevoke = sel := by
    intro acts'
    rw [(run_fixed c _ acts').1, poolInit_toRevoke]
  refine ⟨fun i => (at_most_once hinv i).2, fun hmain => progress hg hmain, ?_, ?_⟩
  · obtain ⟨more, hmore⟩ := completes _ _ hg (Nat.le_refl _)
    have hfin : (run c (poolInit sel p tr) (acts ++ more)).main = .halted .finished := by
      rw [run_append]
      exact hmore
    have hinv' := inv_run (inv_poolInit c sel p tr hcalls houts) (acts ++ more)
    obtain ⟨_, hn, _, _⟩ := finished_summary hinv' hfin
    rw [hsel] at hn
    exact ⟨more, hfin, hn⟩
  · intro hfin
    obtain ⟨_, hn, _, hall⟩ := finished_summary hinv hfin
    rw [hsel] at hn hall
    refine ⟨hn, ?_⟩
    intro i l hl
    obtain ⟨id, hid, _, hout⟩ := hall i l hl
    exact ⟨id, hid, hout⟩

set_option maxRecDepth 100000 in
/-- Instance of C3 as amended: three leases, two slots, the second revoke call fails and
the third item completes first. -/
theorem outcomes_complete_witness :
    wfLeases threeLeases = true ∧ (1 : Int) ≤ 2 ∧
    (run (fetchClient threeLeases [1]) (poolInit threeLeases 2 []) scheduleThree).main =
      .halted .finished ∧
    outcomes (run (fetchClient threeLeases [1]) (poolInit threeLeases 2 []) scheduleThree).trace
      = [.revoked 3 3 "aws/creds/dev/3", .revoked 1 3 "db/creds/ro/1",
          .failed 2 3 "db/creds/ro/2" "permission denied"] ∧
    (outcomes (run (fetchClient threeLeases [1]) (poolInit threeLeases 2 [])
      scheduleThree).trace).length = threeLeases.length ∧
    (∃ id, leaseID (leaseEntry "aws/creds/dev/3") = some id ∧
      outcomesFor 2 (run (fetchClient threeLeases [1]) (poolInit threeLeases 2 [])
        scheduleThree).trace =
        [match (fetchClient threeLeases [1]).write 2 ("sys/leases/revoke-force/" ++ id) with
          | none => Line.revoked (2 + 1) threeLeases.length id
          | some e => Line.failed (2 + 1) threeLeases.length id e]) ∧
    (∃ more, (run (fetchClient threeLeases [1]) (poolInit threeLeases 2 [])
        ([.main, .main, .worker 0] ++ more)).main = .halted .finished ∧
      (outcomes (run (fetchClient threeLeases [1]) (poolInit threeLeases 2 [])
        ([.main, .main, .worker 0] ++ more)).trace).length = threeLeases.length) := by
  have h := outcomes_complete (fetchClient threeLeases [1]) threeLeases 2 [] scheduleThree
    (by decide) (by decide) rfl rfl
  have h' := outcomes_complete (fetchClient threeLeases [1]) threeLeases 2 []
    [.main, .main, .worker 0] (by decide) (by decide) rfl rfl
  exact ⟨by decide, by decide, by decide, by decide, (h.2.2.2 (by decide)).1,
    (h.2.2.2 (by decide)).2 2 (leaseEntry "aws/creds/dev/3") rfl, h'.2.2.1⟩

/-- C4, the claim as stated fails.  With concurrency 0 and one selected lease the
semaphore has capacity 0; after the item is dispatched and the main goroutine waits, no
step is enabled; no schedule prints an outcome line or finishes.  With concurrency -1
the creation of the semaphore panics. -/
theorem no_clamp_counterexample :
    (poolInit [leaseEntry "a"] 0 []).capacity = 0 ∧
    (run (fetchClient [leaseEntry "a"] []) (poolInit [leaseEntry "a"] 0 [])
      [.main, .main]).main = .wait ∧
    (∀ a, step (fetchClient [leaseEntry "a"] [])
      (run (fetchClient [leaseEntry "a"] []) (poolInit [leaseEntry "a"] 0 [])
        [.main, .main]) a = none) ∧
    (∀ acts,
      (run (fetchClient [leaseEntry "a"] []) (poolInit [leaseEntry "a"] 0 []) acts).main ≠
        .halted .finished ∧
      outcomes (run (fetchClient [leaseEntry "a"] []) (poolInit [leaseEntry "a"] 0 [])
        acts).trace = []) ∧
    (poolInit [leaseEntry "a"] (-1) []).main = .halted .panic := by
  refine ⟨rfl, by decide, ?_, ?_, rfl⟩
  · intro a
    cases a with
    | main => rfl
    | worker k =>
      cases k with
      | zero => rfl
      | succ k => rfl
  · intro acts
    have h := unbuffered_never_finishes (c := fetchClient [leaseEntry "a"] [])
      [leaseEntry "a"] [] (by simp) rfl rfl acts
    exact ⟨h.1, h.2.1⟩

/-- C4 as amended.  The concurrency value is the capacity of the semaphore as given.
For every concurrency value `p ≥ 1`, every selected list of well-formed leases and every
trace `tr` of the steps before step 4: the semaphore has capacity `p` and its creation
does not panic; no reachable state has panicked; every reachable state in which the run
is not over has an enabled step (no deadlock); every enabled step uses up one of the
`6 * T + 2` steps of the batch (no spinning); every schedule extends to a finished run;
and in a finished run every selected item has issued its call and printed its outcome. -/
theorem gate_capacity_as_given (c : Client) (sel : List Value) (p : Int)
    (tr : List Event) (acts : List Action) (hwf : wfLeases sel = true) (hp : 1 ≤ p)
    (hcalls : writeCalls tr = []) (houts : outcomes tr = []) :
    ((poolInit sel p tr).capacity : Int) = p ∧
    (poolInit sel p tr).main = .dispatch 0 ∧
    (run c (poolInit sel p tr) acts).main ≠ .halted .panic ∧
    ((∀ e, (run c (poolInit sel p tr) acts).main ≠ .halted e) →
      ∃ a s', step c (run c (poolInit sel p tr) acts) a = some s') ∧
    (fuel (poolInit sel p tr) = 6 * sel.length + 2 ∧
      ∀ a s', step c (run c (poolInit sel p tr) acts) a = some s' →
        fuel s' + 1 = fuel (run c (poolInit sel p tr) acts)) ∧
    (∃ more, (run c (poolInit sel p tr) (acts ++ more)).main = .halted .finished) ∧
    ((run c (poolInit sel p tr) acts).main = .halted .finished →
      ∀ (k : Nat) (l : Value), sel[k]? = some l → ∃ id, leaseID l = some id ∧
        callsFor k (run c (poolInit sel p tr) acts).trace = [revokePath id] ∧
        outcomesFor k (run c (poolInit sel p tr) acts).trace =
          [outcomeLine k sel.length id (c.write k (revokePath id))]) := by
  have hg := good_run (good_poolInit c sel p tr hwf hp hcalls houts) acts
  have hsel : (run c (poolInit sel p tr) acts).toRevoke = sel := by
    rw [(run_fixed c _ acts).1, poolInit_toRevoke]
  have hnp : ¬ p < 0 := by omega
  refine ⟨?_, ?_, ?_, ?_, ?_, ?_, ?_⟩
  · rw [poolInit_capacity]
    omega
  · simp [poolInit, hnp]
  · intro hpanic
    have := hg.safe _ hpanic
    cases this
  · intro hmain
    exact progress hg hmain
  · exact ⟨fuel_poolInit sel p tr (by omega), fun a s' hstep => fuel_step hg hstep⟩
  · obtain ⟨more, hmore⟩ := completes _ _ hg (Nat.le_refl _)
    exact ⟨more, by rw [run_append]; exact hmore⟩
  · intro hfin
    obtain ⟨_, _, _, hall⟩ := finished_summary hg.inv hfin
    rw [hsel] at hall
    exact hall

set_option maxRecDepth 100000 in
/-- Instance of C4 as amended: three leases and concurrency 2; the state after the
dispatch of the three items is not over and has an enabled step. -/
theorem gate_capacity_as_given_witness :
    wfLeases threeLeases = true ∧ (1 : Int) ≤ 2 ∧
    (poolInit threeLeases 2 []).capacity = 2 ∧
    (run (fetchClient threeLeases [1]) (poolInit threeLeases 2 []) scheduleThreeAlt).main =
      .halted .finished ∧
    (run (fetchClient threeLeases [1]) (poolInit threeLeases 2 []) scheduleThreeAlt).main ≠
      .halted .panic ∧
    (run (fetchClient threeLeases [1]) (poolInit threeLeases 2 []) [.main, .main, .main]).main
      = .dispatch 3 ∧
    (∃ a s', step (fetchClient threeLeases [1])
      (run (fetchClient threeLeases [1]) (poolInit threeLeases 2 []) [.main, .main, .main]) a
        = some s') ∧
    callsFor 1 (run (fetchClient threeLeases [1]) (poolInit threeLeases 2 [])
      scheduleThreeAlt).trace = [revokePath "db/creds/ro/2"] := by
  have h := gate_capacity_as_given (fetchClient threeLeases [1]) threeLeases 2 []
    scheduleThreeAlt (by decide) (by decide) rfl rfl
  have h' := gate_capacity_as_given (fetchClient threeLeases [1]) threeLeases 2 []
    [.main, .main, .main] (by decide) (by decide) rfl rfl
  obtain ⟨id, hid, hcall, _⟩ := h.2.2.2.2.2.2 (by decide) 1 (leaseEntry "db/creds/ro/2") rfl
  have hid' : id = "db/creds/ro/2" := by
    have : leaseID (leaseEntry "db/creds/ro/2") = some "db/creds/ro/2" := by decide
    rw [this] at hid
    exact (Option.some.inj hid).symm
  subst hid'
  have hm : (run (fetchClient threeLeases [1]) (poolInit threeLeases 2 [])
      [.main, .main, .main]).main = .dispatch 3 := by decide
  exact ⟨by decide, by decide, rfl, by decide, h.2.2.1, hm,
    h'.2.2.2.1 (fun e he => by rw [hm] at he; cases he), hcall⟩

/-- C5, the run on the failing input: the mount "db/" has the role "readonly", whose
lease listing answers a map without "keys"; the type assertion of line 87 panics after
the three listings, and neither subtotal nor grand total is printed. -/
theorem lease_listing_without_keys_panics :
    runReport noKeysClient =
      ⟨[.print .reportHeader, .listCall "sys/leases/lookup", .print (.mount "db"),
        .listCall "sys/leases/lookup/db/creds",
        .listCall "sys/leases/lookup/db/creds/readonly"], .panic⟩ := by
  decide

/-- C6, the run on the failing input: the fetch answers without error an empty "leases"
list.  Without `autoApprove` the run prints "Found 0" and "Preparing to process 0" and
prompts for the confirmation; on the answer "y" it starts step 4 and ends with the
completion line, on the answer "n" it prints the cancellation.  With `autoApprove` it
starts step 4 at once.  In no case is the line of lines 111-114 printed, which a nil
response does get. -/
theorem empty_list_not_none_found :
    (fetchClient [] []).readWithData =
      (some ⟨some [("lease_count", .num 0), ("leases", .list [])]⟩, none) ∧
    (cleanupPrologue asciiTables (fetchClient [] []) 0 false "y\n").proceeds = true ∧
    (runCleanup asciiTables (fetchClient [] []) 0 10 false "y\n" [.main, .main]).trace =
      [.readCall, .print (.found 0), .print (.preparing 0), .print (.prompt 0), .stdinRead,
        .print .completed] ∧
    (runCleanup asciiTables (fetchClient [] []) 0 10 false "n\n" [.main, .main]).trace =
      [.readCall, .print (.found 0), .print (.preparing 0), .print (.prompt 0), .stdinRead,
        .print .cancelled] ∧
    (cleanupPrologue asciiTables (fetchClient [] []) 0 true "").proceeds = true ∧
    (runCleanup asciiTables (fetchClient [] []) 0 10 true "" [.main, .main]).trace =
      [.readCall, .print (.found 0), .print (.preparing 0), .print .completed] ∧
    (runCleanup asciiTables scenarioA 0 10 false "y\n" [.main, .main]).trace =
      [.readCall, .print .noLeases] :=
  ⟨rfl, by decide, by decide, by decide, by decide, by decide, by decide⟩

/-- C7, the claim as stated fails.  With three selected leases, the second of which
fails to be revoked, and concurrency 0, no schedule prints the failure line, a success
line or the completion report.  With a selected list whose second item is not a lease
entry, the main goroutine panics at the type assertion of line 146 and the completion
report is not printed. -/
theorem no_report_counterexample :
    (∀ acts,
      outcomesFor 1
        (run (fetchClient threeLeases [1]) (poolInit threeLeases 0 []) acts).trace = [] ∧
      outcomes (run (fetchClient threeLeases [1]) (poolInit threeLeases 0 []) acts).trace
        = [] ∧
      Event.print .completed ∉
        (run (fetchClient threeLeases [1]) (poolInit threeLeases 0 []) acts).trace) ∧
    (run (fetchClient malformedLeases []) (poolInit malformedLeases 2 [])
      [.main, .main]).main = .halted .panic ∧
    (∀ more, (run (fetchClient malformedLeases []) (poolInit malformedLeases 2 [])
      ([.main, .main] ++ more)).trace = []) := by
  refine ⟨?_, by decide, ?_⟩
  · intro acts
    have h := unbuffered_silent (c := fetchClient threeLeases [1]) threeLeases acts
      (by simp [threeLeases])
    exact ⟨outcomesFor_nil_of_outcomes 1 _ h.2.1, h.2.1, h.2.2.2⟩
  · intro more
    rw [run_append, halted_stuck (e := .panic) (by decide)]
    decide

/-- C7 as amended.  Failure isolation in `runCleanup`, for every selected list of
well-formed leases and every concurrency value `p ≥ 1`: let two assignments of results
to the revoke calls agree except at the item `k`.  In finished runs under the two
assignments, with any schedules, the outcome lines of every item other than `k` are the
same.  In a finished run the last line is the completion report, an item whose call
returns the error `e` has the single line `failed` with `e`, and an item whose call
returns no error has the single line `revoked`.  Every schedule extends to a finished
run, whose last line is the completion report.  Here `tr` is the trace of the steps
before step 4. -/
theorem failure_isolation (c c' : Client) (k : Nat) (sel : List Value) (p : Int)
    (tr : List Event) (acts acts' : List Action) (hwf : wfLeases sel = true) (hp : 1 ≤ p)
    (hcalls : writeCalls tr = []) (houts : outcomes tr = [])
    (hsame : ∀ j path, j ≠ k → c.write j path = c'.write j path) :
    ((run c (poolInit sel p tr) acts).main = .halted .finished →
      (run c' (poolInit sel p tr) acts').main = .halted .finished →
      ∀ j, j ≠ k → outcomesFor j (run c (poolInit sel p tr) acts).trace =
        outcomesFor j (run c' (poolInit sel p tr) acts').trace) ∧
    ((run c (poolInit sel p tr) acts).main = .halted .finished →
      (run c (poolInit sel p tr) acts).trace.getLast? = some (.print .completed) ∧
      ∀ (j : Nat) (l : Value), sel[j]? = some l → ∃ id, leaseID l = some id ∧
        (∀ e, c.write j ("sys/leases/revoke-force/" ++ id) = some e →
          outcomesFor j (run c (poolInit sel p tr) acts).trace =
            [.failed (j + 1) sel.length id e]) ∧
        (c.write j ("sys/leases/revoke-force/" ++ id) = none →
          outcomesFor j (run c (poolInit sel p tr) acts).trace =
            [.revoked (j + 1) sel.length id])) ∧
    (∃ more, (run c (poolInit sel p tr) (acts ++ more)).main = .halted .finished ∧
      (run c (poolInit sel p tr) (acts ++ more)).trace.getLast? =
        some (.print .completed)) := by
  have hinv := inv_run (inv_poolInit c sel p tr hcalls houts) acts
  have hinv' := inv_run (inv_poolInit c' sel p tr hcalls houts) acts'
  have hsel : (run c (poolInit sel p tr) acts).toRevoke = sel := by
    rw [(run_fixed c _ acts).1, poolInit_toRevoke]
  have hsel' : (run c' (poolInit sel p tr) acts').toRevoke = sel := by
    rw [(run_fixed c' _ acts').1, poolInit_toRevoke]
  refine ⟨?_, ?_, ?_⟩
  · intro hfin hfin' j hj
    obtain ⟨_, _, _, hall⟩ := finished_summary hinv hfin
    obtain ⟨_, _, _, hall'⟩ := finished_summary hinv' hfin'
    rw [hsel] at hall
    rw [hsel'] at hall'
    cases hl : sel[j]? with
    | some l =>
      obtain ⟨id, hid, _, hout⟩ := hall j l hl
      obtain ⟨id', hid', _, hout'⟩ := hall' j l hl
      rw [hid] at hid'
      cases hid'
      rw [hout, hout', hsame j _ hj]
    | none =>
      have hge : sel.length ≤ j := by
        rcases Nat.lt_or_ge j sel.length with h | h
        · simp [List.getElem?_eq_getElem h] at hl
        · exact h
      have h1 := hinv.len_le
      have h2 := hinv'.len_le
      rw [hsel] at h1
      rw [hsel'] at h2
      rw [hinv.outs j, hinv'.outs j, List.getElem?_eq_none (by omega),
        List.getElem?_eq_none (by omega)]
  · intro hfin
    obtain ⟨_, _, hlast, hall⟩ := finished_summary hinv hfin
    rw [hsel] at hall
    refine ⟨hlast, ?_⟩
    intro j l hl
    obtain ⟨id, hid, _, hout⟩ := hall j l hl
    have hpath : revokePath id = "sys/leases/revoke-force/" ++ id := rfl
    rw [hpath] at hout
    refine ⟨id, hid, ?_, ?_⟩
    · intro e he
      rw [hout, he]
      rfl
    · intro he
      rw [hout, he]
      rfl
  · have hg := good_run (good_poolInit c sel p tr hwf hp hcalls houts) acts
    obtain ⟨more, hmore⟩ := completes _ _ hg (Nat.le_refl _)
    have hfin : (run c (poolInit sel p tr) (acts ++ more)).main = .halted .finished := by
      rw [run_append]
      exact hmore
    have hinv2 := inv_run (inv_poolInit c sel p tr hcalls houts) (acts ++ more)
    exact ⟨more, hfin, (finished_summary hinv2 hfin).2.2.1⟩

set_option maxRecDepth 100000 in
/-- Instance of C7 as amended: three leases and two slots, with the second call failing
or not; the lines of the first item are the same in both runs, under different
schedules, and the failing item has its failure line. -/
theorem failure_isolation_witness :
    wfLeases threeLeases = true ∧ (1 : Int) ≤ 2 ∧
    (run (fetchClient threeLeases [1]) (poolInit threeLeases 2 []) scheduleThree).main =
      .halted .finished ∧
    (run (fetchClient threeLeases []) (poolInit threeLeases 2 [])
      scheduleThreeAlt).main =
      .halted .finished ∧
    outcomesFor 0 (run (fetchClient threeLeases [1]) (poolInit threeLeases 2 [])
        scheduleThree).trace =
      outcomesFor 0 (run (fetchClient threeLeases []) (poolInit threeLeases 2 [])
        scheduleThreeAlt).trace ∧
    outcomesFor 1 (run (fetchClient threeLeases [1]) (poolInit threeLeases 2 [])
        scheduleThree).trace = [.failed 2 3 "db/creds/ro/2" "permission denied"] ∧
    (run (fetchClient threeLeases [1]) (poolInit threeLeases 2 [])
        scheduleThree).trace.getLast? = some (.print .completed) := by
  have h := failure_isolation (fetchClient threeLeases [1]) (fetchClient threeLeases []) 1
    threeLeases 2 [] scheduleThree scheduleThreeAlt (by decide) (by decide) rfl rfl
    (fun j _ hj => by simp [fetchClient, hj])
  exact ⟨by decide, by decide, by decide, by decide,
    h.1 (by decide) (by decide) 0 (by decide), by decide, (h.2.1 (by decide)).1⟩

/-- C8, the claim as stated fails.  With one selected lease and concurrency 0 no
schedule issues a revoke call; with concurrency -1 the creation of the semaphore panics
and no call follows.  The item has no revoke call, not exactly one. -/
theorem no_revoke_counterexample :
    wfLeases [leaseEntry "a"] = true ∧
    (∀ acts,
      writeCalls (run (fetchClient [leaseEntry "a"] []) (poolInit [leaseEntry "a"] 0 [])
        acts).trace = [] ∧
      callsFor 0 (run (fetchClient [leaseEntry "a"] []) (poolInit [leaseEntry "a"] 0 [])
        acts).trace = []) ∧
    (∀ acts,
      writeCalls (run (fetchClient [leaseEntry "a"] []) (poolInit [leaseEntry "a"] (-1) [])
        acts).trace = []) := by
  refine ⟨by decide, ?_, ?_⟩
  · intro acts
    have h := unbuffered_silent (c := fetchClient [leaseEntry "a"] []) [leaseEntry "a"] acts
      (by simp)
    exact ⟨h.2.2.1, callsFor_nil_of_writeCalls 0 _ h.2.2.1⟩
  · intro acts
    rw [halted_stuck (e := .panic) rfl]
    rfl

/-- C8 as amended.  Admission bound in `runCleanup`: for every concurrency value `p`, in
every reachable state of step 4 the number of revoke calls in flight is at most
`max 1 p`, and no item has more than one revoke call; in a finished run exactly one
revoke call has been issued for each selected item, on the path
`sys/leases/revoke-force/` followed by its lease identifier.  For well-formed leases and
`p ≥ 1` every schedule extends to a finished run, in which as many calls as selected
items have been issued.  Here `tr` is the trace of the steps before step 4. -/
theorem admission_bound (c : Client) (sel : List Value) (p : Int) (tr : List Event)
    (acts : List Action) (hcalls : writeCalls tr = []) (houts : outcomes tr = []) :
    (inFlight (run c (poolInit sel p tr) acts) : Int) ≤ max 1 p ∧
    (∀ k, (callsFor k (run c (poolInit sel p tr) acts).trace).length ≤ 1) ∧
    ((run c (poolInit sel p tr) acts).main = .halted .finished →
      (writeCalls (run c (poolInit sel p tr) acts).trace).length = sel.length ∧
      ∀ (k : Nat) (l : Value), sel[k]? = some l → ∃ id, leaseID l = some id ∧
        callsFor k (run c (poolInit sel p tr) acts).trace =
          ["sys/leases/revoke-force/" ++ id]) ∧
    (wfLeases sel = true → 1 ≤ p →
      ∃ more, (run c (poolInit sel p tr) (acts ++ more)).main = .halted .finished ∧
        (writeCalls (run c (poolInit sel p tr) (acts ++ more)).trace).length =
          sel.length) := by
  have hinv := inv_run (inv_poolInit c sel p tr hcalls houts) acts
  have hsel : ∀ acts', (run c (poolInit sel p tr) acts').toRevoke = sel := by
    intro acts'
    rw [(run_fixed c _ acts').1, poolInit_toRevoke]
  refine ⟨?_, fun k => (at_most_once hinv k).1, ?_, ?_⟩
  · have h1 := inFlight_le_capacity hinv
    have h2 := poolInit_capacity sel p tr
    rw [(run_fixed c _ acts).2] at h1
    omega
  · intro hfin
    obtain ⟨hn, _, _, hall⟩ := finished_summary hinv hfin
    rw [hsel] at hn hall
    refine ⟨hn, ?_⟩
    intro k l hl
    obtain ⟨id, hid, hcall, _⟩ := hall k l hl
    exact ⟨id, hid, hcall⟩
  · intro hwf hp
    have hg := good_run (good_poolInit c sel p tr hwf hp hcalls houts) acts
    obtain ⟨more, hmore⟩ := completes _ _ hg (Nat.le_refl _)
    have hfin : (run c (poolInit sel p tr) (acts ++ more)).main = .halted .finished := by
      rw [run_append]
      exact hmore
    have hinv2 := inv_run (inv_poolInit c sel p tr hcalls houts) (acts ++ more)
    have hn := (finished_summary hinv2 hfin).1
    rw [hsel] at hn
    exact ⟨more, hfin, hn⟩

set_option maxRecDepth 100000 in
/-- Scenario B, an instance of C8 as amended: 25 candidates, limit 10 and concurrency 4
give a selected list of 10 items; after the first steps of the schedule 4 calls are in
flight, and at the end of the schedule exactly 10 revoke calls have been issued, one on
the revoke-force path of each selected lease. -/
theorem admission_bound_witness :
    cleanupStart asciiTables (fetchClient candidatesB []) 10 4 true "" =
      poolInit (toRevoke candidatesB 10) 4
        [.readCall, .print (.found 25), .print (.preparing 10)] ∧
    (toRevoke candidatesB 10).length = 10 ∧
    inFlight (run (fetchClient candidatesB []) (poolInit (toRevoke candidatesB 10) 4
      [.readCall, .print (.found 25), .print (.preparing 10)]) scheduleBStart) = 4 ∧
    (run (fetchClient candidatesB []) (poolInit (toRevoke candidatesB 10) 4
      [.readCall, .print (.found 25), .print (.preparing 10)]) scheduleB).main =
        .halted .finished ∧
    (writeCalls (run (fetchClient candidatesB []) (poolInit (toRevoke candidatesB 10) 4
      [.readCall, .print (.found 25), .print (.preparing 10)]) scheduleB).trace).length =
        (toRevoke candidatesB 10).length ∧
    writeCalls (run (fetchClient candidatesB []) (poolInit (toRevoke candidatesB 10) 4
      [.readCall, .print (.found 25), .print (.preparing 10)]) scheduleB).trace =
        ["sys/leases/revoke-force/a", "sys/leases/revoke-force/b",
          "sys/leases/revoke-force/c", "sys/leases/revoke-force/d",
          "sys/leases/revoke-force/e", "sys/leases/revoke-force/f",
          "sys/leases/revoke-force/g", "sys/leases/revoke-force/h",
          "sys/leases/revoke-force/i", "sys/leases/revoke-force/j"] ∧
    (inFlight (run (fetchClient candidatesB []) (poolInit (toRevoke candidatesB 10) 4
      [.readCall, .print (.found 25), .print (.preparing 10)]) scheduleBStart) : Int) ≤
        max 1 4 := by
  have h := admission_bound (fetchClient candidatesB []) (toRevoke candidatesB 10) 4
    [.readCall, .print (.found 25), .print (.preparing 10)] scheduleB rfl rfl
  have h' := admission_bound (fetchClient candidatesB []) (toRevoke candidatesB 10) 4
    [.readCall, .print (.found 25), .print (.preparing 10)] scheduleBStart rfl rfl
  exact ⟨rfl, by decide, by decide, by decide, (h.2.2.1 (by decide)).1, by decide, h'.1⟩

/-- C9. Fatal entry errors: when the mount listing errors, `runReport` prints the header,
makes this one call, writes the fatal diagnostic and stops: no role or lease is listed,
no mount line and no grand total is printed.  When the irrevocable-lease fetch errors,
`runCleanup` makes this one call, writes the fatal diagnostic and stops: step 4 does not
start and no revoke call is issued. -/
theorem fatal_entry_errors (u : Unicode) (c : Client) (limit parallel : Int)
    (autoApprove : Bool) (response : String) (acts : List Action) :
    (∀ e, (c.list "sys/leases/lookup").2 = some e →
      runReport c = ⟨[.print .reportHeader, .listCall "sys/leases/lookup",
        .print (.fatalListing e)], .fatal⟩) ∧
    (∀ e, c.readWithData.2 = some e →
      cleanupPrologue u c limit autoApprove response =
        .halt [.readCall, .print (.fatalFetch e)] .fatal ∧
      (runCleanup u c limit parallel autoApprove response acts).main =
        .halted .fatal ∧
      (runCleanup u c limit parallel autoApprove response acts).trace =
        [.readCall, .print (.fatalFetch e)]) := by
  constructor
  · intro e he
    unfold runReport
    cases hr : c.list "sys/leases/lookup" with
    | mk secret err =>
      rw [hr] at he
      simp only at he
      subst he
      rfl
  · intro e he
    have hpro : cleanupPrologue u c limit autoApprove response =
        .halt [.readCall, .print (.fatalFetch e)] .fatal := by
      unfold cleanupPrologue
      cases hr : c.readWithData with
      | mk secret err =>
        rw [hr] at he
        simp only at he
        subst he
        rfl
    have hstart : cleanupStart u c limit parallel autoApprove response =
        haltedState [.readCall, .print (.fatalFetch e)] .fatal := by
      simp only [runCleanup, cleanupStart, hpro]
    refine ⟨hpro, ?_, ?_⟩
    · rw [runCleanup, hstart, halted_stuck (e := .fatal) rfl]
      rfl
    · rw [runCleanup, hstart, halted_stuck (e := .fatal) rfl]
      rfl

/-- Instance of C9: a client whose entry calls answer "connection refused". -/
theorem fatal_entry_errors_witness :
    (downClient.list "sys/leases/lookup").2 = some "connection refused" ∧
    downClient.readWithData.2 = some "connection refused" ∧
    runReport downClient = ⟨[.print .reportHeader, .listCall "sys/leases/lookup",
      .print (.fatalListing "connection refused")], .fatal⟩ ∧
    (runCleanup asciiTables downClient 0 10 true "" scheduleThree).trace =
      [.readCall, .print (.fatalFetch "connection refused")] :=
  ⟨rfl, rfl,
    (fatal_entry_errors asciiTables downClient 0 10 true "" scheduleThree).1 _ rfl,
    ((fatal_entry_errors asciiTables downClient 0 10 true "" scheduleThree).2 _ rfl).2.2⟩

/-- C10. Confirmation gate in `runCleanup`, for a fetch that answers a list of leases:
with `autoApprove` step 4 starts on `toRevoke` and standard input is not read; without
it the prompt is printed and a line is read, step 4 starts when the line, trimmed and
lower-cased, begins with "y", and otherwise (the empty line included) the run prints
the cancellation, returns and issues no revoke call.  When step 4 starts on well-formed
leases with a concurrency of at least 1, a schedule leads to the end of the run with one
revoke call issued for each item of `toRevoke`. -/
theorem confirmation_gate (u : Unicode) (c : Client) (limit parallel : Int)
    (autoApprove : Bool) (response : String) (sec : Secret) (allLeases : List Value)
    (hfetch : c.readWithData = (some sec, none))
    (hleases : mapIndex sec.Data "leases" = .list allLeases) :
    (autoApprove = true →
      cleanupPrologue u c limit autoApprove response =
        .proceed [.readCall, .print (.found allLeases.length),
          .print (.preparing (toRevoke allLeases limit).length)] (toRevoke allLeases limit)) ∧
    (autoApprove = false →
      HasPrefix (ToLower u (TrimSpace u response)) "y" = true →
      cleanupPrologue u c limit autoApprove response =
        .proceed [.readCall, .print (.found allLeases.length),
          .print (.preparing (toRevoke allLeases limit).length),
          .print (.prompt (toRevoke allLeases limit).length), .stdinRead]
          (toRevoke allLeases limit)) ∧
    (autoApprove = false →
      HasPrefix (ToLower u (TrimSpace u response)) "y" = false →
      cleanupPrologue u c limit autoApprove response =
        .halt [.readCall, .print (.found allLeases.length),
          .print (.preparing (toRevoke allLeases limit).length),
          .print (.prompt (toRevoke allLeases limit).length), .stdinRead,
          .print .cancelled] .early ∧
      ∀ acts, writeCalls
        (runCleanup u c limit parallel autoApprove response acts).trace = []) ∧
    HasPrefix (ToLower u (TrimSpace u "")) "y" = false ∧
    (autoApprove = true ∨ HasPrefix (ToLower u (TrimSpace u response)) "y" = true →
      wfLeases (toRevoke allLeases limit) = true → 1 ≤ parallel →
      ∃ acts, (runCleanup u c limit parallel autoApprove response acts).main =
          .halted .finished ∧
        (writeCalls (runCleanup u c limit parallel autoApprove response acts).trace).length =
          (toRevoke allLeases limit).length) := by
  have hpro := prologue_of_list u c limit autoApprove response sec allLeases hfetch hleases
  refine ⟨?_, ?_, ?_, ?_, ?_⟩
  · intro ha
    rw [hpro, if_pos ha]
  · intro ha hy
    subst ha
    rw [hpro]
    simp [confirmed, hy]
  · intro ha hy
    subst ha
    have hhalt : cleanupPrologue u c limit false response =
        .halt [.readCall, .print (.found allLeases.length),
          .print (.preparing (toRevoke allLeases limit).length),
          .print (.prompt (toRevoke allLeases limit).length), .stdinRead,
          .print .cancelled] .early := by
      rw [hpro]
      simp [confirmed, hy]
    refine ⟨hhalt, ?_⟩
    intro acts
    simp only [runCleanup, cleanupStart, hhalt]
    rw [halted_stuck (e := .early) rfl]
    rfl
  · simp [HasPrefix, ToLower, TrimSpace]
  · intro hgo hwf hp
    obtain ⟨tr, hstart⟩ : ∃ tr, cleanupPrologue u c limit autoApprove response =
        .proceed tr (toRevoke allLeases limit) := by
      rw [hpro]
      rcases hgo with ha | hy
      · exact ⟨_, if_pos ha⟩
      · cases autoApprove with
        | true => exact ⟨_, rfl⟩
        | false =>
          have hc : confirmed u response = true := hy
          exact ⟨_, by rw [if_neg (by simp), if_pos hc]⟩
    obtain ⟨hcalls, houts⟩ := prologue_trace_clean u c limit autoApprove response tr _ hstart
    have hg := good_poolInit c (toRevoke allLeases limit) parallel tr hwf hp hcalls houts
    obtain ⟨acts, hacts⟩ := completes _ _ hg (Nat.le_refl _)
    have hrun : runCleanup u c limit parallel autoApprove response acts =
        run c (poolInit (toRevoke allLeases limit) parallel tr) acts := by
      simp only [runCleanup, cleanupStart, hstart]
    refine ⟨acts, by rw [hrun]; exact hacts, ?_⟩
    rw [hrun]
    have hsum := (finished_summary (inv_run hg.inv acts) hacts).1
    rw [(run_fixed c _ acts).1, poolInit_toRevoke] at hsum
    exact hsum

/-- Instance of C10: three leases found, the answers "  Yes", "no" and the empty line. -/
theorem confirmation_gate_witness :
    (fetchClient threeLeases []).readWithData =
      (some ⟨some [("lease_count", .num 3), ("leases", .list threeLeases)]⟩, none) ∧
    HasPrefix (ToLower asciiTables (TrimSpace asciiTables "  Yes\n")) "y" = true ∧
    HasPrefix (ToLower asciiTables (TrimSpace asciiTables "no\n")) "y" = false ∧
    (cleanupPrologue asciiTables (fetchClient threeLeases []) 0 false "  Yes\n").proceeds
      = true ∧
    (cleanupPrologue asciiTables (fetchClient threeLeases []) 0 false "no\n").proceeds
      = false ∧
    (cleanupPrologue asciiTables (fetchClient threeLeases []) 0 false "").proceeds = false ∧
    (cleanupPrologue asciiTables (fetchClient threeLeases []) 0 true "no\n").proceeds
      = true := by
  have hyes := (confirmation_gate asciiTables (fetchClient threeLeases []) 0 2 false
    "  Yes\n" _ threeLeases rfl rfl).2.1 rfl (by decide)
  have hno := ((confirmation_gate asciiTables (fetchClient threeLeases []) 0 2 false
    "no\n" _ threeLeases rfl rfl).2.2.1 rfl (by decide)).1
  have hempty := ((confirmation_gate asciiTables (fetchClient threeLeases []) 0 2 false
    "" _ threeLeases rfl rfl).2.2.1 rfl (by decide)).1
  have hauto := (confirmation_gate asciiTables (fetchClient threeLeases []) 0 2 true
    "no\n" _ threeLeases rfl rfl).1 rfl
  refine ⟨rfl, by decide, by decide, ?_, ?_, ?_, ?_⟩
  · rw [hyes]; rfl
  · rw [hno]; rfl
  · rw [hempty]; rfl
  · rw [hauto]; rfl

end VaultLeaseTool
